import Mathlib

/-!
Verification of the thingosdci CI controller (shallow embedding).

Each definition below is a direct translation of a function or state
machine of the Python sources under `src/thingosdci/`:

* `loopdevmanager.py` — the loop-device allocator (`acquire_loop_dev`,
  `release_loop_dev`, `init`);
* `dockerctl.py` — the log-tail computation of `get_build_log`;
* `building.py` — `Build.set_begin` / `Build.set_end` / `Build.get_state`,
  `BuildGroup`, `_schedule_build` and the scheduler loop `_run_loop`;
* `reposervices/__init__.py` — `RepoService._prepare_version` and the tag
  qualification of `RepoService.handle_new_tag`;
* `reposervices/github.py` — the request body built by
  `GitHub.create_release`.

Python side effects are embedded as explicit state passing; Python
exceptions are embedded as `Except`; the external container runtime is an
oracle (each scheduler tick carries the outcome of the launch attempt).
-/

namespace Thingosdci

/-! ## Decimal strings

Python's `'{}'.format(n)` / `str(n)` and `int(s)` on the plain decimal
strings produced by the loop-device manager.  `pyIntDigits?` accepts
exactly the nonempty all-digit strings; `int()` additionally strips
whitespace and accepts signs, but every such extra input that can reach
`release_loop_dev` fails its dictionary lookup with the same
`LoopDevManagerException` that a parse failure raises, so the observable
behaviour is unchanged. -/

/-- Decimal digits of a natural number, least significant first; empty for 0. -/
def natDigitsRev : Nat → List Nat
  | 0 => []
  | n + 1 => (n + 1) % 10 :: natDigitsRev ((n + 1) / 10)
decreasing_by exact Nat.div_lt_self (Nat.succ_pos n) (by decide)

/-- The character for a decimal digit (`d < 10`). -/
def digitChar : Nat → Char
  | 0 => '0' | 1 => '1' | 2 => '2' | 3 => '3' | 4 => '4'
  | 5 => '5' | 6 => '6' | 7 => '7' | 8 => '8' | _ => '9'

/-- Embedding of Python `str(n)` for a natural number: decimal notation. -/
def pyStrNat (n : Nat) : String :=
  if n = 0 then "0" else String.mk (((natDigitsRev n).reverse).map digitChar)

/-- Numeric value of a decimal digit character. -/
def charDigitVal (c : Char) : Nat := c.toNat - 48

/-- Embedding of Python `int(s)` on plain decimal strings: `some n` when `s`
is a nonempty string of decimal digits, `none` (a `ValueError`) otherwise. -/
def pyIntDigits? (s : String) : Option Nat :=
  if s.data ≠ [] ∧ s.data.all (fun c => decide ('0' ≤ c) && decide (c ≤ '9')) then
    some (s.data.foldl (fun a c => a * 10 + charDigitVal c) 0)
  else none

/-- Embedding of Python string slicing `s[n:]`. -/
def strDropChars (s : String) (n : Nat) : String := String.mk (s.data.drop n)

/-! ## loopdevmanager.py

The module-level dict `_loop_devs` (int → busy flag) is embedded as an
insertion-ordered association list, which is exactly the iteration order
`acquire_loop_dev` relies on.  `init` populates it from
`range(LOOP_DEV_RANGE[0], LOOP_DEV_RANGE[1] + 1)` (the `mknod` side
effects touch only the filesystem). -/

/-- The state of `loopdevmanager._loop_devs`: slot number → busy flag, in
insertion order. -/
abbrev LoopTable := List (Nat × Bool)

inductive LoopDevManagerException
  | unknownLoopDev
  | releaseFreeLoopDev
  | noFreeLoopDev
deriving DecidableEq, Repr

/-- Python dict lookup `_loop_devs[l]` (`none` is a `KeyError`). -/
def lookupDev (t : LoopTable) (l : Nat) : Option Bool :=
  (t.find? (fun p => p.1 = l)).map (fun p => p.2)

/-- Python dict assignment `_loop_devs[l] = v` for a key already present:
in-place update, preserving insertion order. -/
def setDev (t : LoopTable) (l : Nat) (v : Bool) : LoopTable :=
  t.map (fun p => if p.1 = l then (p.1, v) else p)

/-- `loopdevmanager._LOOP_DEV_PATTERN.format(l)`. -/
def mkLoopDevPath (l : Nat) : String := "/dev/loop" ++ pyStrNat l

/-- Embedding of `loopdevmanager.acquire_loop_dev`: scan the dict in
order, mark the first free slot busy and return its device path; raise
`no free loop device` when every slot is busy. -/
def acquire_loop_dev (t : LoopTable) : Except LoopDevManagerException (String × LoopTable) :=
  match t.find? (fun p => !p.2) with
  | some p => Except.ok (mkLoopDevPath p.1, setDev t p.1 true)
  | none => Except.error LoopDevManagerException.noFreeLoopDev

/-- Embedding of `loopdevmanager.release_loop_dev`: parse the trailing
integer of `loop_dev[9:]`, look it up, require it busy, mark it free.
Each failing check raises before the dict is mutated. -/
def release_loop_dev (t : LoopTable) (loop_dev : String) :
    Except LoopDevManagerException LoopTable :=
  match pyIntDigits? (strDropChars loop_dev 9) with
  | none => Except.error LoopDevManagerException.unknownLoopDev
  | some ld =>
    match lookupDev t ld with
    | none => Except.error LoopDevManagerException.unknownLoopDev
    | some false => Except.error LoopDevManagerException.releaseFreeLoopDev
    | some true => Except.ok (setDev t ld false)

/-- Embedding of `loopdevmanager.init` for `LOOP_DEV_RANGE = (lo, hi)`:
all slots of `range(lo, hi + 1)` free. -/
def initLoopDevs (lo hi : Nat) : LoopTable :=
  (List.range' lo (hi + 1 - lo)).map (fun l => (l, false))

/-- The allocator states reachable from `init` by `acquire_loop_dev` and
successful `release_loop_dev` calls. -/
inductive LoopReach (lo hi : Nat) : LoopTable → Prop
  | init : LoopReach lo hi (initLoopDevs lo hi)
  | acq {t t' : LoopTable} {dev : String} :
      LoopReach lo hi t → acquire_loop_dev t = Except.ok (dev, t') → LoopReach lo hi t'
  | rel {t t' : LoopTable} {dev : String} :
      LoopReach lo hi t → release_loop_dev t dev = Except.ok t' → LoopReach lo hi t'

/-! ## dockerctl.py — get_build_log (lines 441-469)

Only the tail computation is embedded; the preceding `docker logs`
invocation (with its fallback to the persisted log file) is external I/O
producing the `log` string.  `str.rfind` is embedded as `rfindNl` on the
character list. -/

/-- `log.rfind(chr(10))`: index of the last newline, `none` for Python's -1. -/
def rfindNl : List Char → Option Nat
  | [] => none
  | c :: cs =>
    match rfindNl cs with
    | some p => some (p + 1)
    | none => if c = '\n' then some 0 else none

/-- The `while last_lines > 0` loop of `get_build_log`: peel the segment
from the last newline (inclusive) onto the accumulated partial log. -/
def tailLoop : Nat → List Char → List Char → List Char
  | 0, _, acc => acc
  | n + 1, log, acc =>
    match rfindNl log with
    | none => tailLoop n [] (log ++ acc)
    | some p => tailLoop n (log.take p) (log.drop p ++ acc)

/-- Embedding of the `last_lines` handling of `dockerctl.get_build_log`:
with a truthy `last_lines` the tail loop runs, otherwise the whole log is
returned. -/
def get_build_log_tail (log : String) (last_lines : Nat) : String :=
  if last_lines = 0 then log else String.mk (tailLoop last_lines log.data [])

/-- Split a character list on newlines (the segments of
`log.split(chr(10))`, so `m` newlines give `m + 1` segments). -/
def splitOnNl : List Char → List (List Char)
  | [] => [[]]
  | c :: cs =>
    match splitOnNl cs with
    | [] => [[]]
    | seg :: rest => if c = '\n' then [] :: seg :: rest else (c :: seg) :: rest

/-- The specification's notion of the last `n` newline-delimited lines,
following the words of the spec (`logTail ... returns the last N
newline-delimited lines`; the whole log when it has no more than `n`
lines): split on newline, keep the last `n` segments, rejoin with
newlines. -/
def last_n_lines_spec (log : String) (n : Nat) : String :=
  let ls := splitOnNl log.data
  if ls.length ≤ n then log
  else String.mk (List.intercalate ['\n'] (ls.drop (ls.length - n)))

/-- Reference characterisation of what the code computes: walking the log
from its end, take characters up to and including the `n`-th newline
encountered (everything, when fewer than `n` newlines exist).  The code's
result is the reversal of this walk applied to the reversed log. -/
def takeThroughNl : Nat → List Char → List Char
  | 0, _ => []
  | _ + 1, [] => []
  | n + 1, c :: cs => if c = '\n' then c :: takeThroughNl n cs else c :: takeThroughNl (n + 1) cs

/-! ## reposervices/__init__.py — _prepare_version and handle_new_tag

`re.match` is external: it is passed in as a function from pattern and
subject to an optional match result carrying `m.groups()` (the tuple of
all capture groups, `None` for a group that did not participate). -/

/-- The result of a successful `re.match`: the capture groups. -/
structure ReMatch where
  groups : List (Option String)
deriving DecidableEq, Repr

/-- Python `m.group(1)`: the first capture group. -/
def ReMatch.group1 (m : ReMatch) : Option String := (m.groups.get? 0).getD none

/-- Embedding of `RepoService._prepare_version` (reposervices/__init__.py
lines 269-280): returns the tag unless the regex is configured, matches,
and the match exposes at least **two** capture groups (`len(m.groups()) < 2`
returns the tag), in which case the first capture group is returned. -/
def prepare_version (reMatch : String → String → Option ReMatch)
    (releaseTagRegex tag : String) : Option String :=
  if releaseTagRegex = "" then some tag
  else
    match reMatch releaseTagRegex tag with
    | none => some tag
    | some m => if m.groups.length < 2 then some tag else m.group1

/-- Embedding of the tag qualification and version computation of
`RepoService.handle_new_tag` (lines 117-139): `none` when the tag is
ignored (no regex configured, or no match); otherwise the version the
scheduled tag builds receive. -/
def handle_new_tag_version (reMatch : String → String → Option ReMatch)
    (releaseTagRegex tag : String) : Option (Option String) :=
  if releaseTagRegex = "" then none
  else
    match reMatch releaseTagRegex tag with
    | none => none
    | some _ => some (prepare_version reMatch releaseTagRegex tag)

/-! ## reposervices/github.py — GitHub.create_release (lines 205-272)

The JSON body POSTed to `/repos/.../releases` when the fresh release is
created, as literally constructed at lines 256-261.  For comparison,
`gitlab_create_release_body` embeds the body built by the sibling
implementation in reposervices/gitlab.py lines 238-243, which carries the
draft flag. -/

inductive JsonVal
  | str (v : String)
  | bool (v : Bool)
deriving DecidableEq, Repr

/-- Build type constants of building.py (TYPE_PR … TYPE_CUSTOM). -/
inductive BuildType
  | pr
  | nightly
  | tag
  | custom
deriving DecidableEq, Repr

/-- The release-creation body of `GitHub.create_release`. -/
def github_create_release_body (tag branch name : String) : List (String × JsonVal) :=
  [("tag_name", JsonVal.str tag),
   ("target_commitish", JsonVal.str branch),
   ("name", JsonVal.str name),
   ("prerelease", JsonVal.bool true)]

/-- The release-creation body of the GitLab-named sibling implementation
(reposervices/gitlab.py lines 238-243), kept for comparison: it sets
`draft` exactly for tag builds. -/
def gitlab_create_release_body (tag commit_id name : String) (build_type : BuildType) :
    List (String × JsonVal) :=
  [("tag_name", JsonVal.str tag),
   ("target_commitish", JsonVal.str commit_id),
   ("name", JsonVal.str name),
   ("prerelease", JsonVal.bool true),
   ("draft", JsonVal.bool (build_type = BuildType.tag))]

/-! ## building.py — Build

A `Build` object.  `bid` stands in for Python object identity (the `is`
comparisons of building.py).  `fired` is a ghost log of the states passed
to `_run_state_change_callbacks`, recording one entry per invocation —
the callbacks receive exactly these values, so firing "exactly once per
transition" is a statement about this log.  `image_files` gathering, log
printing and the spawned `_callback` have no effect on scheduler or
allocator state and are not modelled. -/

/-- `Build.get_state` results (STATE_PENDING / STATE_RUNNING / STATE_ENDED). -/
inductive BuildState
  | pending
  | running
  | ended
deriving DecidableEq, Repr

inductive BuildException
  | alreadyBegun
  | notBegun
  | alreadyEnded
deriving DecidableEq, Repr

structure Build where
  bid : Nat
  repoService : String
  group : Option Nat
  typ : BuildType
  board : String
  commitId : Option String
  tag : Option String
  prNo : Option Nat
  branch : Option String
  version : Option String
  customCmd : Option String
  interactive : Bool
  loopDev : Option String
  container : Option Nat
  beginTime : Option Nat
  endTime : Option Nat
  exitCode : Option Nat
  fired : List BuildState
deriving DecidableEq, Repr

/-- `Build.get_state` (building.py lines 172-179). -/
def Build.get_state (b : Build) : BuildState :=
  if b.beginTime = none then BuildState.pending
  else if b.endTime = none then BuildState.running
  else BuildState.ended

/-- Scheduler configuration: `settings.DOCKER_MAX_PARALLEL` and the
`hashlib.sha1(...).hexdigest()` oracle used for custom-command
identifiers. -/
structure Cfg where
  maxParallel : Nat
  sha1hex : String → String

/-- `Build.get_identifier` (lines 79-90).  Fields that the source never
leaves unset for their build type fall back to `str(None)`. -/
def Build.get_identifier (cfg : Cfg) (b : Build) : String :=
  match b.typ with
  | BuildType.pr =>
    match b.prNo with
    | some n => pyStrNat n
    | none => "None"
  | BuildType.nightly => b.branch.getD "None"
  | BuildType.tag => b.tag.getD "None"
  | BuildType.custom => "cmd" ++ (cfg.sha1hex (b.customCmd.getD "")).take 8

/-- `Build.get_key` (lines 92-93). -/
def Build.get_key (cfg : Cfg) (b : Build) : String :=
  b.repoService ++ "/" ++ b.get_identifier cfg ++ "/" ++ b.board

/-- `Build.set_begin` (lines 95-106): fails if the build has already
begun; otherwise records the begin time, attaches the container, and runs
the state-change callbacks once with the new state. -/
def Build.set_begin (b : Build) (container : Option Nat) (now : Nat) :
    Except BuildException Build :=
  if b.beginTime ≠ none then Except.error BuildException.alreadyBegun
  else
    let b' := { b with beginTime := some now, container := container }
    Except.ok { b' with fired := b'.fired ++ [b'.get_state] }

/-- `Build.set_end` (lines 108-170, scheduler-state-independent part):
fails if the build has not begun or has already ended; otherwise releases
the loop device (a failing release is logged and swallowed), records exit
code and end time, and runs the state-change callbacks once with the new
state.  The removal from `_current_builds_by_board` performed by the same
method is applied by the callers of this core (`exitStep` below), in the
same order as the source. -/
def Build.set_end (b : Build) (t : LoopTable) (exit_code now : Nat) :
    Except BuildException (Build × LoopTable) :=
  if b.beginTime = none then Except.error BuildException.notBegun
  else if b.endTime ≠ none then Except.error BuildException.alreadyEnded
  else
    let t' :=
      match b.loopDev with
      | none => t
      | some dev =>
        match release_loop_dev t dev with
        | Except.ok t2 => t2
        | Except.error _ => t
    let b' := { b with exitCode := some exit_code, endTime := some now }
    Except.ok ({ b' with fired := b'.fired ++ [b'.get_state] }, t')

/-! ## building.py — BuildGroup (lines 196-250)

The group's behaviour depends on its members only through their states, so
a group is embedded as the vector of member states plus the two latches
and a ghost log of the group-level callbacks fired.  State-change
notifications are delivered with the state recorded at transition time,
as `_run_state_change_callbacks` does. -/

inductive GroupEvent
  | firstBegin
  | lastEnd
deriving DecidableEq, Repr

structure GroupState where
  states : List BuildState
  firstBuildBegun : Bool
  lastBuildEnded : Bool
  events : List GroupEvent
deriving DecidableEq, Repr

/-- A member transition: `Build.set_begin` or `Build.set_end` of member `i`. -/
inductive GroupAct
  | abegin (i : Nat)
  | aend (i : Nat)
deriving DecidableEq, Repr

/-- A group with `n` members, all pending, latches clear. -/
def initGroup (n : Nat) : GroupState :=
  { states := List.replicate n BuildState.pending
    firstBuildBegun := false
    lastBuildEnded := false
    events := [] }

/-- `BuildGroup._on_build_state_change` combined with the member's own
transition.  A `set_begin` is only possible for a pending member and a
`set_end` only for a running one (otherwise the member raises and no
notification happens: the action is a no-op).  On a transition the member
state is updated and then `_handle_build_begin` / `_handle_build_end`
runs: the former fires the first-begin callbacks unless latched; the
latter fires the last-end callbacks when no member remains pending or
running, unless latched. -/
def groupStep (g : GroupState) (a : GroupAct) : GroupState :=
  match a with
  | GroupAct.abegin i =>
    if g.states[i]? = some BuildState.pending then
      let st' := g.states.set i BuildState.running
      if g.firstBuildBegun then { g with states := st' }
      else
        { g with
            states := st'
            firstBuildBegun := true
            events := g.events ++ [GroupEvent.firstBegin] }
    else g
  | GroupAct.aend i =>
    if g.states[i]? = some BuildState.running then
      let st' := g.states.set i BuildState.ended
      if st'.all (fun s => s = BuildState.ended) then
        if g.lastBuildEnded then { g with states := st' }
        else
          { g with
              states := st'
              lastBuildEnded := true
              events := g.events ++ [GroupEvent.lastEnd] }
      else { g with states := st' }
    else g

/-- A whole interleaving of member transitions. -/
def runGroup (n : Nat) (acts : List GroupAct) : GroupState :=
  acts.foldl groupStep (initGroup n)

/-- Inductive invariant of a build group with `n ≥ 1` members: the member
count is fixed; the first-begin latch is set exactly when some member has
left Pending; the last-end latch is set exactly when every member has
Ended; and the ghost log of fired group callbacks is determined by the
latches — empty, or `firstBegin` alone, or `firstBegin` then `lastEnd`. -/
def GroupInvariant (n : Nat) (g : GroupState) : Prop :=
  g.states.length = n ∧
  (g.firstBuildBegun = true ↔ ∃ s ∈ g.states, s ≠ BuildState.pending) ∧
  (g.lastBuildEnded = true ↔ g.states.all (fun s => s = BuildState.ended) = true) ∧
  g.events = (if g.firstBuildBegun then [GroupEvent.firstBegin] else []) ++
    (if g.lastBuildEnded then [GroupEvent.lastEnd] else [])

/-! ## building.py — scheduler state

`_build_queue`, `_current_builds_by_board`, `_current_build_group` and
the loop-device table, plus the id counter supplying object identities.
`_current_builds_by_board` is a dict keyed by board; it is embedded as an
insertion-ordered list whose boards stay distinct (proved below as an
invariant).  Build groups are compared by identity (`is`), embedded as
`Option Nat` group ids. -/

structure GState where
  queue : List Build
  running : List Build
  curGroup : Option Nat
  devs : LoopTable
  nextId : Nat
deriving Repr

/-- Dict lookup `_current_builds_by_board.get(board)`. -/
def lookupBoard (rs : List Build) (board : String) : Option Build :=
  rs.find? (fun b => b.board = board)

/-- Dict assignment `_current_builds_by_board[b.board] = b`. -/
def insertBoard (rs : List Build) (b : Build) : List Build :=
  if rs.any (fun x => x.board = b.board) then
    rs.map (fun x => if x.board = b.board then b else x)
  else rs ++ [b]

/-- Dict removal `_current_builds_by_board.pop(board)`. -/
def removeBoard (rs : List Build) (board : String) : List Build :=
  rs.filter (fun x => ¬ x.board = board)

/-- The arguments of `building._schedule_build`. -/
structure SchedParams where
  repoService : String
  group : Option Nat
  typ : BuildType
  board : String
  commitId : Option String
  tag : Option String
  prNo : Option Nat
  branch : Option String
  version : Option String
  customCmd : Option String
  interactive : Bool

/-- `Build.__init__` (lines 40-74): populate the fields and acquire a loop
device; an allocator failure is caught and leaves `loop_dev = None`. -/
def mkBuild (p : SchedParams) (bid : Nat) (t : LoopTable) : Build × LoopTable :=
  let devAndT :=
    match acquire_loop_dev t with
    | Except.ok (dev, t') => (some dev, t')
    | Except.error _ => (none, t)
  ({ bid := bid
     repoService := p.repoService
     group := p.group
     typ := p.typ
     board := p.board
     commitId := p.commitId
     tag := p.tag
     prNo := p.prNo
     branch := p.branch
     version := p.version
     customCmd := p.customCmd
     interactive := p.interactive
     loopDev := devAndT.1
     container := none
     beginTime := none
     endTime := none
     exitCode := none
     fired := [] }, devAndT.2)

/-- The build `_schedule_build` would construct in state `s`. -/
def newBuildOf (p : SchedParams) (s : GState) : Build :=
  (mkBuild p s.nextId s.devs).1

/-- The replacement scan of `_schedule_build` (lines 294-303): find the
first queued build with the same key and remove it (`.remove` of the
element found at that index; builds have no `__eq__`, so list removal is
by identity and removes exactly that element). -/
def removeFirstSameKey (cfg : Cfg) (key : String) : List Build → List Build
  | [] => []
  | b :: rest =>
    if b.get_key cfg = key then rest else b :: removeFirstSameKey cfg key rest

/-- `building._schedule_build` (lines 284-309): construct the build
(acquiring a loop device), drop the first queued build with the same key
if any, and append the new build. -/
def scheduleStep (cfg : Cfg) (p : SchedParams) (s : GState) : GState :=
  let bt := mkBuild p s.nextId s.devs
  { s with
      queue := removeFirstSameKey cfg (bt.1.get_key cfg) s.queue ++ [bt.1]
      devs := bt.2
      nextId := s.nextId + 1 }

/-- Admission of the dequeued build `b` (building.py lines 358-401), in
the state `s` whose queue still reads `b :: rest`.  The build is recorded
in `_current_builds_by_board` and `_current_build_group` is bound to its
group *before* the launch attempt; when `dockerctl.run_container` raises
(`launchOk = false`), the `continue` at line 397 leaves both in place.
On success, `set_begin` attaches the container (`none` for interactive
runs, per spec §4.1), and a container-less build is immediately ended
with exit code 0, which removes it from the running table again
(`set_end`, lines 164-165). -/
def admitStep (launchOk : Bool) (cid now : Nat) (b : Build) (rest : List Build)
    (s : GState) : GState :=
  let running1 := insertBoard s.running b
  if launchOk then
    let container : Option Nat := if b.interactive then none else some cid
    match b.set_begin container now with
    | Except.error _ =>
      { s with queue := rest, running := running1, curGroup := b.group }
    | Except.ok b1 =>
      if container.isSome then
        { s with
            queue := rest
            running := insertBoard s.running b1
            curGroup := b.group }
      else
        match b1.set_end s.devs 0 now with
        | Except.error _ =>
          { s with
              queue := rest
              running := insertBoard s.running b1
              curGroup := b.group }
        | Except.ok bt =>
          let r2 := insertBoard s.running b1
          let r3 :=
            if (lookupBoard r2 bt.1.board).any (fun x => x.bid = bt.1.bid) then
              removeBoard r2 bt.1.board
            else r2
          { s with
              queue := rest
              running := r3
              curGroup := b.group
              devs := bt.2 }
  else
    { s with queue := rest, running := running1, curGroup := b.group }

/-- The dequeue and push-back checks of `_run_loop` (lines 344-356): pop
the head; re-append it if its board is building or if it belongs to a
group other than the bound one; otherwise admit it. -/
def dequeueStep (launchOk : Bool) (cid now : Nat) (s : GState) : GState :=
  match s.queue with
  | [] => s
  | b :: rest =>
    if (lookupBoard s.running b.board).isSome then
      { s with queue := rest ++ [b] }
    else if s.curGroup.isSome && b.group ≠ s.curGroup then
      { s with queue := rest ++ [b] }
    else admitStep launchOk cid now b rest s

/-- One iteration of `building._run_loop` (lines 316-401).  The container
runtime is external: `launchOk` tells whether `dockerctl.run_container`
returned (rather than raising `DockerException`), and `cid` is the id of
the container it produced.  The branch structure follows the source line
by line: empty queue; free slot check against `DOCKER_MAX_PARALLEL`;
clearing `_current_build_group` when nothing runs; the two retry-later
guards; then dequeue and admission. -/
def tickStep (cfg : Cfg) (launchOk : Bool) (cid now : Nat) (s : GState) : GState :=
  if s.queue.isEmpty then s
  else if cfg.maxParallel ≤ s.running.length then s
  else
    let s1 := if s.running.length = 0 then { s with curGroup := none } else s
    if s1.queue.all (fun b => (lookupBoard s1.running b.board).isSome) then s1
    else if s1.curGroup.isSome && s1.queue.all (fun b => b.group ≠ s1.curGroup) then s1
    else dequeueStep launchOk cid now s1

/-- A container-exited notification for the build running on `board`
(`Container` observers fire `Build._on_container_state_change`, which
calls `set_end`).  Such a notification only exists for a build that
`set_begin` attached to a container and that has not yet ended; events
outside that shape target no build and change nothing. -/
def exitStep (bd : String) (exit_code now : Nat) (s : GState) : GState :=
  match lookupBoard s.running bd with
  | none => s
  | some b =>
    if b.container.isSome && b.beginTime.isSome && b.endTime = none then
      match b.set_end s.devs exit_code now with
      | Except.error _ => s
      | Except.ok bt =>
        let r' :=
          if (lookupBoard s.running bt.1.board).any (fun x => x.bid = bt.1.bid) then
            removeBoard s.running bt.1.board
          else s.running
        { s with running := r', devs := bt.2 }
    else s

/-- The events that mutate the scheduler's shared state. -/
inductive Ev
  | sched (p : SchedParams)
  | tick (launchOk : Bool) (cid now : Nat)
  | exitc (board : String) (exit_code now : Nat)

def stepEv (cfg : Cfg) (e : Ev) (s : GState) : GState :=
  match e with
  | Ev.sched p => scheduleStep cfg p s
  | Ev.tick ok cid now => tickStep cfg ok cid now s
  | Ev.exitc bd code now => exitStep bd code now s

def runEvs (cfg : Cfg) (s : GState) (es : List Ev) : GState :=
  es.foldl (fun s e => stepEv cfg e s) s

/-- The startup state: empty queue and running table, no current group,
loop devices initialised over `LOOP_DEV_RANGE = (lo, hi)`. -/
def initGState (lo hi : Nat) : GState :=
  { queue := []
    running := []
    curGroup := none
    devs := initLoopDevs lo hi
    nextId := 0 }

/-- Scheduler states reachable from startup. -/
inductive GReach (cfg : Cfg) (lo hi : Nat) : GState → Prop
  | init : GReach cfg lo hi (initGState lo hi)
  | step {s : GState} (e : Ev) : GReach cfg lo hi s → GReach cfg lo hi (stepEv cfg e s)

/-- The builds the program can still reach through its own data
structures: queued or running. -/
def liveBuilds (s : GState) : List Build := s.queue ++ s.running

/-- The inductive invariant of the scheduler state, established at
startup and preserved by every event (proved below):

1. the running table never exceeds `DOCKER_MAX_PARALLEL` entries;
2. its boards are distinct (it is a dict keyed by board);
3. at most one queued build per key;
4. queued builds have not begun nor ended;
5. object identities are below the id counter and distinct;
6. the loop-device dict has distinct keys;
7. every loop device held by a live build is a well-formed device path
   whose slot is busy;
8. no two distinct live builds hold the same loop device. -/
structure Inv (cfg : Cfg) (lo hi : Nat) (s : GState) : Prop where
  runBound : s.running.length ≤ cfg.maxParallel
  boardsNodup : (s.running.map Build.board).Nodup
  keyAtMostOne : ∀ k : String,
    (s.queue.filter (fun b => b.get_key cfg = k)).length ≤ 1
  queuePending : ∀ b ∈ s.queue, b.beginTime = none ∧ b.endTime = none
  idsBound : ∀ b ∈ liveBuilds s, b.bid < s.nextId
  idsNodup : (liveBuilds s |>.map Build.bid).Nodup
  devKeys : s.devs.map Prod.fst = List.range' lo (hi + 1 - lo)
  liveDevOk : ∀ b ∈ liveBuilds s, ∀ d, b.loopDev = some d →
    ∃ l, d = mkLoopDevPath l ∧ lookupDev s.devs l = some true
  liveDevInj : ∀ b1 ∈ liveBuilds s, ∀ b2 ∈ liveBuilds s, b1.bid ≠ b2.bid →
    ∀ d, b1.loopDev = some d → b2.loopDev ≠ some d

/-- A loop-device slot that is busy but no longer held by any live build:
nothing can ever release it again. -/
def OrphanBusy (s : GState) (l : Nat) : Prop :=
  lookupDev s.devs l = some true ∧
    ∀ b ∈ liveBuilds s, ∀ d, b.loopDev = some d → d ≠ mkLoopDevPath l

/-- A small concrete configuration (DOCKER_MAX_PARALLEL = 1) for worked
examples; the sha1 oracle is irrelevant to non-custom builds. -/
def cfg0 : Cfg := { maxParallel := 1, sha1hex := fun _ => "" }

/-- A concrete nightly build request on board `boardA`. -/
def p0 : SchedParams :=
  { repoService := "github"
    group := none
    typ := BuildType.nightly
    board := "boardA"
    commitId := none
    tag := none
    prNo := none
    branch := some "dev"
    version := some "nightly-dev"
    customCmd := none
    interactive := false }

theorem digitChar_spec {d : Nat} (h : d < 10) :
    ('0' ≤ digitChar d ∧ digitChar d ≤ '9') ∧ charDigitVal (digitChar d) = d := by
  interval_cases d <;> exact ⟨by decide, by decide⟩

theorem natDigitsRev_lt (n : Nat) : ∀ d ∈ natDigitsRev n, d < 10 := by
  induction n using Nat.strong_induction_on with
  | _ n ih =>
    match n with
    | 0 => intro d hd; simp [natDigitsRev] at hd
    | m + 1 =>
      intro d hd
      rw [natDigitsRev] at hd
      rcases List.mem_cons.mp hd with h | h
      · subst h; exact Nat.mod_lt _ (by decide)
      · exact ih ((m + 1) / 10) (Nat.div_lt_self (Nat.succ_pos m) (by decide)) d h

theorem natDigitsRev_foldr (n : Nat) :
    ∀ a : Nat, (natDigitsRev n).foldr (fun d acc => acc * 10 + d) a
      = a * 10 ^ (natDigitsRev n).length + n := by
  induction n using Nat.strong_induction_on with
  | _ n ih =>
    match n with
    | 0 => intro a; simp [natDigitsRev]
    | m + 1 =>
      intro a
      rw [natDigitsRev]
      simp only [List.foldr_cons, List.length_cons]
      rw [ih ((m + 1) / 10) (Nat.div_lt_self (Nat.succ_pos m) (by decide))]
      rw [Nat.add_mul, pow_succ]
      have h10 : 10 * ((m + 1) / 10) + (m + 1) % 10 = m + 1 := Nat.div_add_mod (m + 1) 10
      ring_nf
      omega

theorem natDigitsRev_ne_nil {n : Nat} (h : n ≠ 0) : natDigitsRev n ≠ [] := by
  match n with
  | 0 => exact absurd rfl h
  | m + 1 => rw [natDigitsRev]; exact List.cons_ne_nil _ _

/-- `int(str(n)) = n`: parsing the decimal rendering gives the number back. -/
theorem pyIntDigits?_pyStrNat (n : Nat) : pyIntDigits? (pyStrNat n) = some n := by
  by_cases h0 : n = 0
  · subst h0; decide
  · have hlt := natDigitsRev_lt n
    rw [pyStrNat, if_neg h0, pyIntDigits?]
    rw [if_pos]
    · congr 1
      rw [List.foldl_map, List.foldl_reverse]
      have : ∀ l : List Nat, (∀ d ∈ l, d < 10) → ∀ a : Nat,
          l.foldr (fun x y => y * 10 + charDigitVal (digitChar x)) a
            = l.foldr (fun d acc => acc * 10 + d) a := by
        intro l
        induction l with
        | nil => intro _ a; rfl
        | cons x xs ihl =>
          intro hmem a
          simp only [List.foldr_cons]
          rw [ihl (fun d hd => hmem d (List.mem_cons_of_mem _ hd))]
          rw [(digitChar_spec (hmem x (List.mem_cons_self x xs))).2]
      rw [this _ hlt, natDigitsRev_foldr n 0]
      simp
    · refine ⟨?_, ?_⟩
      · intro hnil
        have h1 : List.map digitChar (natDigitsRev n).reverse = [] := hnil
        have h2 : (natDigitsRev n).reverse = [] := by simpa using h1
        exact natDigitsRev_ne_nil h0 (by simpa using h2)
      · show (List.map digitChar (natDigitsRev n).reverse).all _ = true
        rw [List.all_eq_true]
        intro c hc
        simp only [List.mem_map] at hc
        obtain ⟨d, hd, rfl⟩ := hc
        have hd10 : d < 10 := hlt d (List.mem_reverse.mp hd)
        have hsp := (digitChar_spec hd10).1
        simp [hsp.1, hsp.2]

theorem pyStrNat_inj {m n : Nat} (h : pyStrNat m = pyStrNat n) : m = n := by
  have hm := pyIntDigits?_pyStrNat m
  have hn := pyIntDigits?_pyStrNat n
  rw [h, hn] at hm
  exact (Option.some.injEq _ _).mp hm.symm

theorem setDev_keys (t : LoopTable) (l : Nat) (v : Bool) :
    (setDev t l v).map Prod.fst = t.map Prod.fst := by
  induction t with
  | nil => rfl
  | cons p rest ih =>
    simp only [setDev, List.map_cons] at *
    by_cases h : p.1 = l <;> simp [h, ih]

theorem acquire_ok_shape {t : LoopTable} {dev : String} {t' : LoopTable}
    (h : acquire_loop_dev t = Except.ok (dev, t')) :
    ∃ l, (l, false) ∈ t ∧ dev = mkLoopDevPath l ∧ t' = setDev t l true := by
  unfold acquire_loop_dev at h
  cases hfind : t.find? (fun p => !p.2) with
  | none => rw [hfind] at h; exact absurd h (by simp)
  | some p =>
    rw [hfind] at h
    simp only [Except.ok.injEq, Prod.mk.injEq] at h
    refine ⟨p.1, ?_, h.1.symm, h.2.symm⟩
    have hmem := List.mem_of_find?_eq_some hfind
    have hp2 : p.2 = false := by
      have := List.find?_some hfind
      simpa using this
    have : p = (p.1, false) := by rw [← hp2]
    rwa [← this]

theorem release_ok_shape {t : LoopTable} {dev : String} {t' : LoopTable}
    (h : release_loop_dev t dev = Except.ok t') :
    ∃ l, pyIntDigits? (strDropChars dev 9) = some l ∧ lookupDev t l = some true ∧
      t' = setDev t l false := by
  unfold release_loop_dev at h
  split at h
  · exact absurd h (by simp)
  · rename_i ld hint
    split at h
    · exact absurd h (by simp)
    · exact absurd h (by simp)
    · rename_i hlk
      simp only [Except.ok.injEq] at h
      exact ⟨ld, hint, hlk, h.symm⟩

theorem loopReach_keys {lo hi : Nat} {t : LoopTable} (h : LoopReach lo hi t) :
    t.map Prod.fst = List.range' lo (hi + 1 - lo) := by
  induction h with
  | init =>
    unfold initLoopDevs
    rw [List.map_map]
    have hc : (Prod.fst ∘ fun l : Nat => (l, false)) = id := rfl
    rw [hc, List.map_id]
  | acq _ hacq ih =>
    obtain ⟨l, _, _, ht'⟩ := acquire_ok_shape hacq
    rw [ht', setDev_keys]
    exact ih
  | rel _ hrel ih =>
    obtain ⟨l, _, _, ht'⟩ := release_ok_shape hrel
    rw [ht', setDev_keys]
    exact ih

theorem loopReach_nodup {lo hi : Nat} {t : LoopTable} (h : LoopReach lo hi t) :
    (t.map Prod.fst).Nodup := by
  rw [loopReach_keys h]; exact List.nodup_range' lo (hi + 1 - lo)

theorem lookupDev_setDev_self {t : LoopTable} {l : Nat} {b : Bool}
    (h : lookupDev t l = some b) (v : Bool) : lookupDev (setDev t l v) l = some v := by
  induction t with
  | nil => simp [lookupDev] at h
  | cons p rest ih =>
    by_cases hp : p.1 = l
    · simp [lookupDev, setDev, List.find?, hp]
    · simp only [lookupDev, setDev, List.map_cons, if_neg hp] at *
      rw [List.find?_cons_of_neg _ (by simpa using hp)] at h ⊢
      exact ih h

theorem lookupDev_setDev_ne (t : LoopTable) {l l' : Nat} (h : l' ≠ l) (v : Bool) :
    lookupDev (setDev t l v) l' = lookupDev t l' := by
  induction t with
  | nil => rfl
  | cons p rest ih =>
    by_cases hp : p.1 = l
    · have hne : p.1 ≠ l' := by rw [hp]; exact fun hh => h hh.symm
      simp only [lookupDev, setDev, List.map_cons, if_pos hp]
      rw [List.find?_cons_of_neg _ (by simpa using hne),
        List.find?_cons_of_neg _ (by simpa using hne)]
      exact ih
    · simp only [lookupDev, setDev, List.map_cons, if_neg hp]
      by_cases hp' : p.1 = l'
      · rw [List.find?_cons_of_pos _ (by simpa using hp'),
          List.find?_cons_of_pos _ (by simpa using hp')]
      · rw [List.find?_cons_of_neg _ (by simpa using hp'),
          List.find?_cons_of_neg _ (by simpa using hp')]
        exact ih

theorem setDev_setDev (t : LoopTable) (l : Nat) (a b : Bool) :
    setDev (setDev t l a) l b = setDev t l b := by
  unfold setDev
  rw [List.map_map]
  apply List.map_congr_left
  intro p _
  by_cases hp : p.1 = l <;> simp [hp]

theorem setDev_mem_self {t : LoopTable} {l : Nat} {v : Bool}
    (hnd : (t.map Prod.fst).Nodup) (hmem : (l, v) ∈ t) : setDev t l v = t := by
  induction t with
  | nil => rfl
  | cons p rest ih =>
    simp only [List.map_cons, List.nodup_cons] at hnd
    rcases List.mem_cons.mp hmem with h | h
    · subst h
      simp only [setDev, List.map_cons, if_pos rfl]
      congr 1
      have : ∀ q ∈ rest, (if q.1 = l then (q.1, v) else q) = q := by
        intro q hq
        rw [if_neg]
        intro hql
        exact hnd.1 (by simpa [hql] using List.mem_map_of_mem Prod.fst hq)
      rw [List.map_congr_left this, List.map_id']
    · have hpl : p.1 ≠ l := by
        intro hpl
        exact hnd.1 (by simpa [hpl] using List.mem_map_of_mem Prod.fst h)
      simp only [setDev, List.map_cons, if_neg hpl]
      congr 1
      exact ih hnd.2 h

theorem lookupDev_of_mem {t : LoopTable} {l : Nat} {v : Bool}
    (hnd : (t.map Prod.fst).Nodup) (hmem : (l, v) ∈ t) : lookupDev t l = some v := by
  induction t with
  | nil => simp at hmem
  | cons p rest ih =>
    simp only [List.map_cons, List.nodup_cons] at hnd
    rcases List.mem_cons.mp hmem with h | h
    · subst h; simp [lookupDev, List.find?]
    · have hpl : p.1 ≠ l := by
        intro hpl
        exact hnd.1 (by simpa [hpl] using List.mem_map_of_mem Prod.fst h)
      simp only [lookupDev]
      rw [List.find?_cons_of_neg _ (by simpa using hpl)]
      exact ih hnd.2 h

theorem strDropChars_mkLoopDevPath (l : Nat) :
    strDropChars (mkLoopDevPath l) 9 = pyStrNat l := by
  have hdata : (mkLoopDevPath l).data = "/dev/loop".data ++ (pyStrNat l).data :=
    String.data_append _ _
  have h9 : "/dev/loop".data.length = 9 := by decide
  unfold strDropChars
  rw [hdata, ← h9, List.drop_left]

/-- Parsing the trailing integer of an acquired device path recovers the
slot number. -/
theorem parse_mkLoopDevPath (l : Nat) :
    pyIntDigits? (strDropChars (mkLoopDevPath l) 9) = some l := by
  rw [strDropChars_mkLoopDevPath]; exact pyIntDigits?_pyStrNat l

theorem mkLoopDevPath_inj {m n : Nat} (h : mkLoopDevPath m = mkLoopDevPath n) : m = n := by
  have := congrArg (fun s => strDropChars s 9) h
  simp only [strDropChars_mkLoopDevPath] at this
  exact pyStrNat_inj this

/-- Releasing the path of a busy slot: parses back to the slot and frees it. -/
theorem release_mkLoopDevPath {t : LoopTable} {l : Nat} (h : lookupDev t l = some true) :
    release_loop_dev t (mkLoopDevPath l) = Except.ok (setDev t l false) := by
  unfold release_loop_dev
  rw [parse_mkLoopDevPath]
  simp [h]

/-- C8: over every reachable allocator state, `acquire` immediately
followed by `release` of the returned device restores the table exactly;
`release` of an unparseable path, an unknown slot, or a free slot raises
`LoopDevManagerException` (each check fires before the dict is mutated, so
the table is untouched); and the busy count is bounded by the size of the
configured range. -/
theorem C8_loop_device_allocator (lo hi : Nat) (t : LoopTable)
    (hr : LoopReach lo hi t) :
    (∀ dev t', acquire_loop_dev t = Except.ok (dev, t') →
      release_loop_dev t' dev = Except.ok t) ∧
    (∀ dev, pyIntDigits? (strDropChars dev 9) = none →
      release_loop_dev t dev = Except.error LoopDevManagerException.unknownLoopDev) ∧
    (∀ dev l, pyIntDigits? (strDropChars dev 9) = some l → lookupDev t l = none →
      release_loop_dev t dev = Except.error LoopDevManagerException.unknownLoopDev) ∧
    (∀ dev l, pyIntDigits? (strDropChars dev 9) = some l → lookupDev t l = some false →
      release_loop_dev t dev = Except.error LoopDevManagerException.releaseFreeLoopDev) ∧
    (t.filter (fun p => p.2)).length ≤ hi + 1 - lo := by
  have hnd : (t.map Prod.fst).Nodup := loopReach_nodup hr
  refine ⟨?_, ?_, ?_, ?_, ?_⟩
  · intro dev t' hacq
    obtain ⟨l, hmem, hdev, ht'⟩ := acquire_ok_shape hacq
    subst hdev
    subst ht'
    have hl : lookupDev t l = some false := lookupDev_of_mem hnd hmem
    have hl' : lookupDev (setDev t l true) l = some true := lookupDev_setDev_self hl true
    rw [release_mkLoopDevPath hl', setDev_setDev, setDev_mem_self hnd hmem]
  · intro dev hparse
    unfold release_loop_dev
    rw [hparse]
  · intro dev l hparse hlk
    unfold release_loop_dev
    rw [hparse]
    simp [hlk]
  · intro dev l hparse hlk
    unfold release_loop_dev
    rw [hparse]
    simp [hlk]
  · calc (t.filter (fun p => p.2)).length
        ≤ t.length := List.length_filter_le _ _
      _ = (t.map Prod.fst).length := (List.length_map t Prod.fst).symm
      _ = hi + 1 - lo := by rw [loopReach_keys hr, List.length_range']

/-- C8 witness: the theorem applied to the freshly initialised table of
`LOOP_DEV_RANGE = (0, 1)`. -/
theorem C8_loop_device_allocator_witness :
    LoopReach 0 1 (initLoopDevs 0 1) ∧
    ((∀ dev t', acquire_loop_dev (initLoopDevs 0 1) = Except.ok (dev, t') →
      release_loop_dev t' dev = Except.ok (initLoopDevs 0 1)) ∧
    (∀ dev, pyIntDigits? (strDropChars dev 9) = none →
      release_loop_dev (initLoopDevs 0 1) dev
        = Except.error LoopDevManagerException.unknownLoopDev) ∧
    (∀ dev l, pyIntDigits? (strDropChars dev 9) = some l →
      lookupDev (initLoopDevs 0 1) l = none →
      release_loop_dev (initLoopDevs 0 1) dev
        = Except.error LoopDevManagerException.unknownLoopDev) ∧
    (∀ dev l, pyIntDigits? (strDropChars dev 9) = some l →
      lookupDev (initLoopDevs 0 1) l = some false →
      release_loop_dev (initLoopDevs 0 1) dev
        = Except.error LoopDevManagerException.releaseFreeLoopDev) ∧
    ((initLoopDevs 0 1).filter (fun p => p.2)).length ≤ 1 + 1 - 0) :=
  ⟨LoopReach.init, C8_loop_device_allocator 0 1 (initLoopDevs 0 1) LoopReach.init⟩

theorem rfindNl_none_of_not_mem {l : List Char} (h : '\n' ∉ l) : rfindNl l = none := by
  induction l with
  | nil => rfl
  | cons c cs ih =>
    have hc : ¬ c = '\n' := fun hh => h (hh ▸ List.mem_cons_self c cs)
    have hcs : '\n' ∉ cs := fun hh => h (List.mem_cons_of_mem c hh)
    rw [rfindNl, ih hcs, if_neg hc]

theorem not_mem_of_rfindNl_none {l : List Char} (h : rfindNl l = none) : '\n' ∉ l := by
  induction l with
  | nil => simp
  | cons c cs ih =>
    rw [rfindNl] at h
    cases hcs : rfindNl cs with
    | some q => rw [hcs] at h; exact absurd h (by simp)
    | none =>
      rw [hcs] at h
      by_cases hc : c = '\n'
      · rw [if_pos hc] at h; exact absurd h (by simp)
      · intro hmem
        rcases List.mem_cons.mp hmem with hh | hh
        · exact hc hh.symm
        · exact ih hcs hh

/-- Decomposition of a string at its last newline. -/
theorem rfindNl_eq_some {l : List Char} {p : Nat} (h : rfindNl l = some p) :
    l.drop p = '\n' :: l.drop (p + 1) ∧ '\n' ∉ l.drop (p + 1) := by
  induction l generalizing p with
  | nil => exact absurd h (by simp [rfindNl])
  | cons c cs ih =>
    rw [rfindNl] at h
    cases hcs : rfindNl cs with
    | some q =>
      rw [hcs] at h
      simp only [Option.some.injEq] at h
      subst h
      simpa [List.drop_succ_cons] using ih hcs
    | none =>
      rw [hcs] at h
      by_cases hc : c = '\n'
      · rw [if_pos hc] at h
        simp only [Option.some.injEq] at h
        subst h
        refine ⟨by simpa using hc.symm ▸ rfl, ?_⟩
        simpa using not_mem_of_rfindNl_none hcs
      · rw [if_neg hc] at h
        exact absurd h (by simp)

theorem takeThroughNl_of_not_mem {l : List Char} (h : '\n' ∉ l) (n : Nat) :
    takeThroughNl (n + 1) l = l := by
  induction l generalizing n with
  | nil => rfl
  | cons c cs ih =>
    have hc : ¬ c = '\n' := fun hh => h (hh ▸ List.mem_cons_self c cs)
    have hcs : '\n' ∉ cs := fun hh => h (List.mem_cons_of_mem c hh)
    rw [takeThroughNl, if_neg hc, ih hcs]

theorem takeThroughNl_append {xs : List Char} (h : '\n' ∉ xs) (n : Nat) (ys : List Char) :
    takeThroughNl (n + 1) (xs ++ '\n' :: ys) = xs ++ '\n' :: takeThroughNl n ys := by
  induction xs generalizing n with
  | nil => simp [takeThroughNl]
  | cons c cs ih =>
    have hc : ¬ c = '\n' := fun hh => h (hh ▸ List.mem_cons_self c cs)
    have hcs : '\n' ∉ cs := fun hh => h (List.mem_cons_of_mem c hh)
    rw [List.cons_append, takeThroughNl, if_neg hc, ih hcs]
    rfl

theorem takeThroughNl_nil (n : Nat) : takeThroughNl n [] = [] := by
  cases n <;> rfl

theorem takeThroughNl_of_count_lt {n : Nat} {l : List Char}
    (h : l.count '\n' < n) : takeThroughNl n l = l := by
  induction l generalizing n with
  | nil => exact takeThroughNl_nil n
  | cons c cs ih =>
    match n with
    | 0 => exact absurd h (by omega)
    | m + 1 =>
      by_cases hc : c = '\n'
      · rw [takeThroughNl, if_pos hc]
        have hcc : (c :: cs).count '\n' = cs.count '\n' + 1 := by
          rw [hc, List.count_cons_self]
        rw [ih (by omega)]
      · rw [takeThroughNl, if_neg hc]
        have hcc : (c :: cs).count '\n' = cs.count '\n' := by
          rw [List.count_cons_of_ne (fun hh => hc hh.symm)]
        rw [ih (by omega)]

/-- The tail loop of `get_build_log` computes the end-to-front walk of
`takeThroughNl` on the reversed log. -/
theorem tailLoop_eq (n : Nat) : ∀ (log acc : List Char),
    tailLoop n log acc = (takeThroughNl n log.reverse).reverse ++ acc := by
  induction n with
  | zero => intro log acc; simp [tailLoop, takeThroughNl]
  | succ m ih =>
    intro log acc
    cases hfind : rfindNl log with
    | none =>
      rw [tailLoop]
      simp only [hfind]
      rw [ih]
      have hnot : '\n' ∉ log.reverse := by
        simpa using not_mem_of_rfindNl_none hfind
      rw [takeThroughNl_of_not_mem hnot]
      simp [takeThroughNl_nil]
    | some p =>
      obtain ⟨hdrop, hnot⟩ := rfindNl_eq_some hfind
      have hsplit : log = log.take p ++ '\n' :: log.drop (p + 1) := by
        conv_lhs => rw [← List.take_append_drop p log]
        rw [hdrop]
      have hrev : log.reverse = (log.drop (p + 1)).reverse ++ '\n' :: (log.take p).reverse := by
        conv_lhs => rw [hsplit]
        rw [List.reverse_append, List.reverse_cons, List.append_assoc]
        simp
      have hrevnot : '\n' ∉ (log.drop (p + 1)).reverse := by simpa using hnot
      rw [tailLoop]
      simp only [hfind]
      rw [ih, hdrop]
      rw [hrev, takeThroughNl_append hrevnot]
      rw [List.reverse_append, List.reverse_cons, List.reverse_reverse]
      simp

/-- C9 counterexample: on the log `a`, `b`, `c` (three newline-delimited
lines) with `last_lines = 1`, `get_build_log` returns a string with a
spurious leading newline rather than exactly the last line: the result is
the newline followed by `c`, while the last newline-delimited line is
`c`.  (On a log ending in a newline the divergence is larger still: for
`a`-newline-`b`-newline the 1-line tail is just the trailing newline.) -/
theorem C9_log_tail_counterexample :
    get_build_log_tail "a\nb\nc" 1 ≠ last_n_lines_spec "a\nb\nc" 1 ∧
    get_build_log_tail "a\nb\nc" 1 = "\nc" ∧
    last_n_lines_spec "a\nb\nc" 1 = "c" := by
  refine ⟨?_, by decide, by decide⟩
  decide

/-- C9 amended: for every log and `N ≥ 1`, `get_build_log` returns the
shortest suffix of the log that contains `N` newline characters — the
last `N` newline-delimited lines, each *preceded by* the newline that
delimits it (so with one leading newline) — and the whole log when the
log contains fewer than `N` newlines. -/
theorem C9_log_tail_amended (log : String) (n : Nat) :
    (1 ≤ n →
      get_build_log_tail log n = String.mk ((takeThroughNl n log.data.reverse).reverse)) ∧
    (log.data.count '\n' < n → get_build_log_tail log n = log) := by
  constructor
  · intro hn
    unfold get_build_log_tail
    rw [if_neg (by omega)]
    rw [tailLoop_eq]
    simp
  · intro hcount
    have hn : 1 ≤ n := by
      have := Nat.zero_le (log.data.count '\n')
      omega
    unfold get_build_log_tail
    rw [if_neg (by omega)]
    rw [tailLoop_eq]
    have : takeThroughNl n log.data.reverse = log.data.reverse := by
      apply takeThroughNl_of_count_lt
      rw [List.count_reverse]
      exact hcount
    rw [this, List.append_nil, List.reverse_reverse]

/-- C9 amended witness: the two conjuncts applied at concrete inputs. -/
theorem C9_log_tail_amended_witness :
    get_build_log_tail "a\nb" 1 = String.mk ((takeThroughNl 1 ("a\nb".data.reverse)).reverse) ∧
    get_build_log_tail "a\nb" 3 = "a\nb" :=
  ⟨(C9_log_tail_amended "a\nb" 1).1 (by decide),
   (C9_log_tail_amended "a\nb" 3).2 (by decide)⟩

/-- C4 counterexample: a release tag pattern with exactly **one** capture
group.  It models `re.match` of the pattern `v([0-9]+)` against the tag
`v1234`, whose `m.groups()` is the one-element tuple holding `1234`.  The
claim says the version becomes the first capture group (`1234`); the code
(`len(m.groups()) < 2` at reposervices/__init__.py line 277) returns the
full tag `v1234` instead. -/
theorem C4_version_counterexample :
    prepare_version (fun _ _ => some (ReMatch.mk [some "1234"])) "v([0-9]+)" "v1234"
        = some "v1234" ∧
    (ReMatch.mk [some "1234"]).group1 = some "1234" ∧
    some "v1234" ≠ (some "1234" : Option String) := by
  refine ⟨by decide, by decide, by decide⟩

/-- C4 amended: for a tag event that qualifies (regex configured and
matching), the version given to the scheduled tag builds equals the first
capture group only when the match exposes at least **two** capture
groups, and equals the full tag otherwise (in particular also when there
is exactly one capture group). -/
theorem C4_version_amended (reMatch : String → String → Option ReMatch)
    (regex tag : String) (v : Option String)
    (h : handle_new_tag_version reMatch regex tag = some v) :
    ∃ m, reMatch regex tag = some m ∧
      ((2 ≤ m.groups.length ∧ v = m.group1) ∨
       (m.groups.length < 2 ∧ v = some tag)) := by
  unfold handle_new_tag_version at h
  by_cases hre : regex = ""
  · rw [if_pos hre] at h
    exact absurd h (by simp)
  · rw [if_neg hre] at h
    cases hm : reMatch regex tag with
    | none => rw [hm] at h; exact absurd h (by simp)
    | some m =>
      rw [hm] at h
      simp only [Option.some.injEq] at h
      refine ⟨m, rfl, ?_⟩
      unfold prepare_version at h
      simp only [if_neg hre, hm] at h
      by_cases hlen : m.groups.length < 2
      · rw [if_pos hlen] at h
        exact Or.inr ⟨hlen, h.symm⟩
      · rw [if_neg hlen] at h
        exact Or.inl ⟨by omega, h.symm⟩

/-- C4 amended witness: a two-group match; the version is the first group. -/
theorem C4_version_amended_witness :
    ∃ m, (fun _ _ => some (ReMatch.mk [some "v", some "1234"])) "(v)(.*)" "v1234" = some m ∧
      ((2 ≤ m.groups.length ∧ some "v" = m.group1) ∨
       (m.groups.length < 2 ∧ some "v" = some "v1234")) :=
  C4_version_amended (fun _ _ => some (ReMatch.mk [some "v", some "1234"]))
    "(v)(.*)" "v1234" (some "v") (by decide)

/-- C5: the body `GitHub.create_release` POSTs when it creates the fresh
release (reposervices/github.py lines 256-261) carries no `draft` key at
all — for tag builds included — and marks the release a *prerelease*
instead.  The sibling implementation in reposervices/gitlab.py is the one
that creates tag-type releases as drafts (`draft: build_type ==
TYPE_TAG`, comment `never automatically release a tag build`), matching
the spec's intent. -/
theorem C5_github_release_not_draft (tag branch name : String) (bt : BuildType) :
    "draft" ∉ (github_create_release_body tag branch name).map Prod.fst ∧
    (github_create_release_body tag branch name).find? (fun kv => kv.1 = "prerelease")
      = some ("prerelease", JsonVal.bool true) ∧
    (gitlab_create_release_body tag branch name bt).find? (fun kv => kv.1 = "draft")
      = some ("draft", JsonVal.bool (decide (bt = BuildType.tag))) := by
  refine ⟨?_, ?_, ?_⟩
  · simp [github_create_release_body]
  · simp [github_create_release_body, List.find?]
  · simp [gitlab_create_release_body, List.find?]

/-- C6: the transition discipline of a `Build`.  Calling `set_begin` on a
build that has begun fails with `BuildException`; calling `set_end`
before `set_begin`, or after a previous `set_end`, fails with
`BuildException`; a successful `set_begin` moves the state from Pending
to Running, a successful `set_end` from Running to Ended (never
backwards), and each successful transition appends exactly one
state-change notification to the callback log. -/
theorem C6_build_transition_discipline (b : Build) (t : LoopTable)
    (c : Option Nat) (ec now : Nat) :
    (b.beginTime ≠ none → b.set_begin c now = Except.error BuildException.alreadyBegun) ∧
    (b.beginTime = none → b.set_end t ec now = Except.error BuildException.notBegun) ∧
    (b.beginTime ≠ none → b.endTime ≠ none →
      b.set_end t ec now = Except.error BuildException.alreadyEnded) ∧
    (b.beginTime = none → b.endTime = none →
      ∃ b', b.set_begin c now = Except.ok b' ∧
        b.get_state = BuildState.pending ∧
        b'.get_state = BuildState.running ∧
        b'.fired = b.fired ++ [BuildState.running]) ∧
    (b.beginTime ≠ none → b.endTime = none →
      ∃ b' t', b.set_end t ec now = Except.ok (b', t') ∧
        b.get_state = BuildState.running ∧
        b'.get_state = BuildState.ended ∧
        b'.fired = b.fired ++ [BuildState.ended]) := by
  refine ⟨?_, ?_, ?_, ?_, ?_⟩
  · intro hb
    unfold Build.set_begin
    rw [if_pos hb]
  · intro hb
    unfold Build.set_end
    rw [if_pos hb]
  · intro hb he
    unfold Build.set_end
    rw [if_neg (by simpa using hb), if_pos he]
  · intro hb he
    unfold Build.set_begin
    rw [if_neg (by simpa using hb)]
    refine ⟨_, rfl, ?_, ?_, ?_⟩
    · unfold Build.get_state
      rw [if_pos hb]
    · simp [Build.get_state, he]
    · simp [Build.get_state, he]
  · intro hb he
    unfold Build.set_end
    rw [if_neg (by simpa using hb), if_neg (by simpa using he)]
    refine ⟨_, _, rfl, ?_, ?_, ?_⟩
    · unfold Build.get_state
      rw [if_neg hb, if_pos he]
    · simp [Build.get_state, hb]
    · simp [Build.get_state, hb]

/-- C6 witness: a freshly scheduled pending build can begin and then end,
and the double-transition attempts fail. -/
theorem C6_build_transition_discipline_witness :
    (Build.mk 0 "github" none BuildType.pr "b0" none none (some 1) none none none
        false none none none none none []).beginTime = none ∧
    (∃ b', (Build.mk 0 "github" none BuildType.pr "b0" none none (some 1) none none none
        false none none none none none []).set_begin (some 7) 3 = Except.ok b' ∧
      (Build.mk 0 "github" none BuildType.pr "b0" none none (some 1) none none none
        false none none none none none []).get_state = BuildState.pending ∧
      b'.get_state = BuildState.running ∧
      b'.fired = [] ++ [BuildState.running]) :=
  ⟨rfl,
    (C6_build_transition_discipline
      (Build.mk 0 "github" none BuildType.pr "b0" none none (some 1) none none none
        false none none none none none []) [] (some 7) 0 3).2.2.2.1 rfl rfl⟩

theorem mem_of_getElem?_eq {α : Type} {l : List α} {i : Nat} {a : α}
    (h : l[i]? = some a) : a ∈ l := by
  obtain ⟨hlt, heq⟩ := List.getElem?_eq_some.mp h
  exact heq ▸ List.getElem_mem hlt

theorem groupInvariant_init (n : Nat) (hn : 1 ≤ n) : GroupInvariant n (initGroup n) := by
  refine ⟨by simp [initGroup], ?_, ?_, rfl⟩
  · simp only [initGroup]
    constructor
    · intro h; exact absurd h (by simp)
    · rintro ⟨s, hs, hne⟩
      exact absurd (List.eq_of_mem_replicate hs) hne
  · simp only [initGroup]
    constructor
    · intro h; exact absurd h (by simp)
    · intro h
      rw [List.all_eq_true] at h
      have hmem : BuildState.pending ∈ List.replicate n BuildState.pending :=
        List.mem_replicate.mpr ⟨by omega, rfl⟩
      have h2 := h _ hmem
      exact absurd h2 (by decide)

theorem groupInvariant_step {n : Nat} {g : GroupState} (hg : GroupInvariant n g)
    (a : GroupAct) : GroupInvariant n (groupStep g a) := by
  obtain ⟨hlen, hfirst, hlast, hev⟩ := hg
  cases a with
  | abegin i =>
    simp only [groupStep]
    by_cases hguard : g.states[i]? = some BuildState.pending
    · rw [if_pos hguard]
      obtain ⟨hlt, _⟩ := List.getElem?_eq_some.mp hguard
      have hmemrun : BuildState.running ∈ g.states.set i BuildState.running :=
        mem_of_getElem?_eq (List.getElem?_set_self hlt)
      have hnotall : ((g.states.set i BuildState.running).all
          (fun s => s = BuildState.ended)) = false := by
        rw [List.all_eq_false]
        exact ⟨BuildState.running, hmemrun, by decide⟩
      have hmempend : BuildState.pending ∈ g.states := mem_of_getElem?_eq hguard
      have holdall : (g.states.all (fun s => s = BuildState.ended)) = false := by
        rw [List.all_eq_false]
        exact ⟨BuildState.pending, hmempend, by decide⟩
      have hlastf : g.lastBuildEnded = false := by
        cases hle : g.lastBuildEnded with
        | false => rfl
        | true => rw [hlast.mp hle] at holdall; exact absurd holdall (by simp)
      by_cases hfb : g.firstBuildBegun = true
      · rw [if_pos hfb]
        refine ⟨by simpa using hlen, ?_, ?_, ?_⟩
        · show g.firstBuildBegun = true ↔ _
          exact Iff.intro
            (fun _ => ⟨BuildState.running, hmemrun, by decide⟩)
            (fun _ => hfb)
        · show g.lastBuildEnded = true ↔ _
          rw [hlastf, hnotall]
        · show g.events = _
          rw [hev, hfb, hlastf]
      · rw [if_neg hfb]
        refine ⟨by simpa using hlen, ?_, ?_, ?_⟩
        · show (true : Bool) = true ↔ _
          exact Iff.intro
            (fun _ => ⟨BuildState.running, hmemrun, by decide⟩)
            (fun _ => rfl)
        · show g.lastBuildEnded = true ↔ _
          rw [hlastf, hnotall]
        · show g.events ++ [GroupEvent.firstBegin] = _
          rw [hev, eq_false_of_ne_true hfb, hlastf]
          simp
    · rw [if_neg hguard]
      exact ⟨hlen, hfirst, hlast, hev⟩
  | aend i =>
    simp only [groupStep]
    by_cases hguard : g.states[i]? = some BuildState.running
    · rw [if_pos hguard]
      obtain ⟨hlt, _⟩ := List.getElem?_eq_some.mp hguard
      have hmemend : BuildState.ended ∈ g.states.set i BuildState.ended :=
        mem_of_getElem?_eq (List.getElem?_set_self hlt)
      have hmemrun : BuildState.running ∈ g.states := mem_of_getElem?_eq hguard
      have holdall : (g.states.all (fun s => s = BuildState.ended)) = false := by
        rw [List.all_eq_false]
        exact ⟨BuildState.running, hmemrun, by decide⟩
      have hlastf : g.lastBuildEnded = false := by
        cases hle : g.lastBuildEnded with
        | false => rfl
        | true => rw [hlast.mp hle] at holdall; exact absurd holdall (by simp)
      have hfirstt : g.firstBuildBegun = true :=
        hfirst.mpr ⟨BuildState.running, hmemrun, by decide⟩
      by_cases hall : ((g.states.set i BuildState.ended).all
          (fun s => s = BuildState.ended)) = true
      · rw [if_pos hall, if_neg (by simp [hlastf])]
        refine ⟨by simpa using hlen, ?_, ?_, ?_⟩
        · show g.firstBuildBegun = true ↔ _
          exact Iff.intro
            (fun _ => ⟨BuildState.ended, hmemend, by decide⟩)
            (fun _ => hfirstt)
        · show (true : Bool) = true ↔ _
          rw [hall]
        · show g.events ++ [GroupEvent.lastEnd] = _
          rw [hev, hfirstt, hlastf]
          simp
      · rw [if_neg hall]
        refine ⟨by simpa using hlen, ?_, ?_, ?_⟩
        · show g.firstBuildBegun = true ↔ _
          exact Iff.intro
            (fun _ => ⟨BuildState.ended, hmemend, by decide⟩)
            (fun _ => hfirstt)
        · show g.lastBuildEnded = true ↔ _
          rw [hlastf, eq_false_of_ne_true hall]
        · show g.events = _
          rw [hev, hfirstt, hlastf]
    · rw [if_neg hguard]
      exact ⟨hlen, hfirst, hlast, hev⟩

theorem groupInvariant_run (n : Nat) (hn : 1 ≤ n) (acts : List GroupAct) :
    GroupInvariant n (runGroup n acts) := by
  unfold runGroup
  induction acts using List.reverseRecOn with
  | nil => exact groupInvariant_init n hn
  | append_singleton as a ih =>
    rw [List.foldl_append]
    exact groupInvariant_step ih a

/-- C7: for any group with `N ≥ 1` members and any interleaving of member
transitions after which every member has ended, the group fired its
first-begin callbacks exactly once and its last-end callbacks exactly
once, the former before the latter: the ghost log of group callbacks is
exactly `firstBegin` followed by `lastEnd`. -/
theorem C7_group_first_begin_last_end (n : Nat) (acts : List GroupAct) (hn : 1 ≤ n)
    (hdone : ((runGroup n acts).states.all (fun s => s = BuildState.ended)) = true) :
    (runGroup n acts).events = [GroupEvent.firstBegin, GroupEvent.lastEnd] := by
  obtain ⟨hlen, hfirst, hlast, hev⟩ := groupInvariant_run n hn acts
  have hlastt : (runGroup n acts).lastBuildEnded = true := hlast.mpr hdone
  have hfirstt : (runGroup n acts).firstBuildBegun = true := by
    apply hfirst.mpr
    have hne : (runGroup n acts).states ≠ [] := by
      intro hnil
      rw [hnil] at hlen
      simp at hlen
      omega
    obtain ⟨s, hs⟩ := List.exists_mem_of_ne_nil _ hne
    have : s = BuildState.ended := by
      rw [List.all_eq_true] at hdone
      simpa using hdone s hs
    exact ⟨s, hs, by rw [this]; decide⟩
  rw [hev, hfirstt, hlastt]
  rfl

/-- C7 witness: a one-member group that begins and ends. -/
theorem C7_group_first_begin_last_end_witness :
    1 ≤ 1 ∧
    ((runGroup 1 [GroupAct.abegin 0, GroupAct.aend 0]).states.all
      (fun s => s = BuildState.ended)) = true ∧
    (runGroup 1 [GroupAct.abegin 0, GroupAct.aend 0]).events
      = [GroupEvent.firstBegin, GroupEvent.lastEnd] :=
  ⟨by decide, by decide,
    C7_group_first_begin_last_end 1 [GroupAct.abegin 0, GroupAct.aend 0]
      (by decide) (by decide)⟩

/-! ### Scheduler-machine helper lemmas -/

theorem set_begin_ok_shape {b : Build} {c : Option Nat} {now : Nat} {b' : Build}
    (h : b.set_begin c now = Except.ok b') :
    b'.bid = b.bid ∧ b'.board = b.board ∧ b'.loopDev = b.loopDev ∧
    b'.group = b.group ∧ b'.beginTime = some now ∧ b'.endTime = b.endTime := by
  unfold Build.set_begin at h
  by_cases hb : b.beginTime = none
  · rw [if_neg (by simp [hb])] at h
    simp only [Except.ok.injEq] at h
    subst h
    exact ⟨rfl, rfl, rfl, rfl, rfl, rfl⟩
  · rw [if_pos (by simpa using hb)] at h
    exact absurd h (by simp)

theorem set_end_ok_shape {b : Build} {t : LoopTable} {ec now : Nat} {b' : Build}
    {t' : LoopTable} (h : b.set_end t ec now = Except.ok (b', t')) :
    b'.bid = b.bid ∧ b'.board = b.board ∧ b'.loopDev = b.loopDev ∧
    b'.beginTime = b.beginTime ∧ b'.endTime = some now ∧
    t' = (match b.loopDev with
          | none => t
          | some dev =>
            match release_loop_dev t dev with
            | Except.ok t2 => t2
            | Except.error _ => t) := by
  unfold Build.set_end at h
  by_cases hb : b.beginTime = none
  · rw [if_pos hb] at h
    exact absurd h (by simp)
  · rw [if_neg hb] at h
    by_cases he : b.endTime = none
    · rw [if_neg (by simp [he])] at h
      simp only [Except.ok.injEq, Prod.mk.injEq] at h
      obtain ⟨hb', ht'⟩ := h
      subst hb'
      exact ⟨rfl, rfl, rfl, rfl, rfl, ht'.symm⟩
    · rw [if_pos (by simpa using he)] at h
      exact absurd h (by simp)

/-- With the well-formedness of live loop devices, `set_end` either keeps
the table (no device) or frees exactly the build's slot. -/
theorem set_end_ok_released {b : Build} {t : LoopTable} {ec now : Nat} {b' : Build}
    {t' : LoopTable} (h : b.set_end t ec now = Except.ok (b', t'))
    (hwf : ∀ d, b.loopDev = some d → ∃ l, d = mkLoopDevPath l ∧ lookupDev t l = some true) :
    (b.loopDev = none ∧ t' = t) ∨
      (∃ l, b.loopDev = some (mkLoopDevPath l) ∧ lookupDev t l = some true ∧
        t' = setDev t l false) := by
  have hsh := set_end_ok_shape h
  have ht' := hsh.2.2.2.2.2
  cases hdev : b.loopDev with
  | none =>
    left
    refine ⟨rfl, ?_⟩
    rw [ht', hdev]
  | some dev =>
    right
    obtain ⟨l, hdl, hbusy⟩ := hwf dev hdev
    refine ⟨l, by rw [hdl], hbusy, ?_⟩
    rw [ht', hdev, hdl]
    simp [release_mkLoopDevPath hbusy]

theorem mkBuild_fields (p : SchedParams) (bid : Nat) (t : LoopTable) :
    (mkBuild p bid t).1.bid = bid ∧ (mkBuild p bid t).1.board = p.board ∧
    (mkBuild p bid t).1.group = p.group ∧
    (mkBuild p bid t).1.beginTime = none ∧ (mkBuild p bid t).1.endTime = none := by
  unfold mkBuild
  exact ⟨rfl, rfl, rfl, rfl, rfl⟩

/-- The loop-device outcome of `Build.__init__`: either the allocator
fails and the build has no device and the table is unchanged, or the
first free slot is acquired. -/
theorem mkBuild_dev (p : SchedParams) (bid : Nat) (t : LoopTable) :
    ((mkBuild p bid t).1.loopDev = none ∧ (mkBuild p bid t).2 = t) ∨
      (∃ l, (l, false) ∈ t ∧ (mkBuild p bid t).1.loopDev = some (mkLoopDevPath l) ∧
        (mkBuild p bid t).2 = setDev t l true) := by
  unfold mkBuild
  cases hacq : acquire_loop_dev t with
  | error e => left; simp [hacq]
  | ok pr =>
    right
    obtain ⟨l, hmem, hdev, ht'⟩ := @acquire_ok_shape t pr.1 pr.2 (by rw [hacq])
    exact ⟨l, hmem, by simp [hacq, hdev], by simp [hacq, ht']⟩

theorem lookupBoard_eq_none {rs : List Build} {bd : String} :
    lookupBoard rs bd = none ↔ ∀ b ∈ rs, b.board ≠ bd := by
  unfold lookupBoard
  rw [List.find?_eq_none]
  simp

theorem lookupBoard_some_facts {rs : List Build} {bd : String} {b : Build}
    (h : lookupBoard rs bd = some b) : b ∈ rs ∧ b.board = bd := by
  unfold lookupBoard at h
  exact ⟨List.mem_of_find?_eq_some h, by simpa using List.find?_some h⟩

theorem insertBoard_of_fresh {rs : List Build} {b : Build}
    (h : lookupBoard rs b.board = none) : insertBoard rs b = rs ++ [b] := by
  unfold insertBoard
  rw [if_neg]
  intro hany
  rw [List.any_eq_true] at hany
  obtain ⟨x, hx, hxb⟩ := hany
  exact absurd (by simpa using hxb) (lookupBoard_eq_none.mp h x hx)

theorem mem_removeBoard {rs : List Build} {bd : String} {x : Build} :
    x ∈ removeBoard rs bd ↔ x ∈ rs ∧ x.board ≠ bd := by
  unfold removeBoard
  rw [List.mem_filter]
  simp

theorem removeBoard_append_self {rs : List Build} {b : Build}
    (h : lookupBoard rs b.board = none) :
    removeBoard (rs ++ [b]) b.board = rs := by
  unfold removeBoard
  rw [List.filter_append]
  have h1 : rs.filter (fun x => ¬ x.board = b.board) = rs :=
    List.filter_eq_self.mpr (fun a ha => by
      simpa using lookupBoard_eq_none.mp h a ha)
  have h2 : [b].filter (fun x => ¬ x.board = b.board) = [] := by simp
  rw [h1, h2, List.append_nil]

theorem lookupBoard_append_self {rs : List Build} {b : Build}
    (h : lookupBoard rs b.board = none) :
    lookupBoard (rs ++ [b]) b.board = some b := by
  unfold lookupBoard at *
  rw [List.find?_append, h]
  simp [List.find?]

theorem nodup_append_singleton {α : Type} {l : List α} {a : α}
    (ha : a ∉ l) (hl : l.Nodup) : (l ++ [a]).Nodup := by
  rw [(List.perm_append_singleton a l).nodup_iff]
  exact List.nodup_cons.mpr ⟨ha, hl⟩

theorem removeFirstSameKey_sublist (cfg : Cfg) (key : String) (l : List Build) :
    (removeFirstSameKey cfg key l).Sublist l := by
  induction l with
  | nil => exact List.Sublist.refl _
  | cons b rest ih =>
    unfold removeFirstSameKey
    by_cases hb : b.get_key cfg = key
    · rw [if_pos hb]
      exact List.sublist_cons_self b rest
    · rw [if_neg hb]
      exact List.Sublist.cons₂ b ih

/-- After the replacement scan, no queued build carries the key (given the
queue held at most one). -/
theorem removeFirstSameKey_filter {cfg : Cfg} {key : String} {l : List Build}
    (h : (l.filter (fun b => b.get_key cfg = key)).length ≤ 1) :
    (removeFirstSameKey cfg key l).filter (fun b => b.get_key cfg = key) = [] := by
  induction l with
  | nil => rfl
  | cons b rest ih =>
    unfold removeFirstSameKey
    by_cases hb : b.get_key cfg = key
    · rw [if_pos hb]
      rw [List.filter_cons_of_pos (by simpa using hb)] at h
      simp only [List.length_cons] at h
      have : (rest.filter (fun b => b.get_key cfg = key)).length = 0 := by omega
      exact List.length_eq_zero.mp this
    · rw [if_neg hb]
      rw [List.filter_cons_of_neg (by simpa using hb)] at h
      rw [List.filter_cons_of_neg (by simpa using hb)]
      exact ih h

theorem devKeys_nodup {cfg : Cfg} {lo hi : Nat} {s : GState} (hInv : Inv cfg lo hi s) :
    (s.devs.map Prod.fst).Nodup := by
  rw [hInv.devKeys]
  exact List.nodup_range' lo (hi + 1 - lo)

theorem inv_sched {cfg : Cfg} {lo hi : Nat} {s : GState} (hInv : Inv cfg lo hi s)
    (p : SchedParams) : Inv cfg lo hi (scheduleStep cfg p s) := by
  have hnb := mkBuild_fields p s.nextId s.devs
  have hdev := mkBuild_dev p s.nextId s.devs
  set nb := (mkBuild p s.nextId s.devs).1 with hnbdef
  set t' := (mkBuild p s.nextId s.devs).2 with ht'def
  set k := nb.get_key cfg with hkdef
  have hqmem : ∀ x, x ∈ liveBuilds (scheduleStep cfg p s) →
      x ∈ liveBuilds s ∨ x = nb := by
    intro x hx
    unfold liveBuilds scheduleStep at *
    simp only [List.mem_append] at hx
    rcases hx with (hx | hx) | hx
    · exact Or.inl (List.mem_append.mpr (Or.inl
        ((removeFirstSameKey_sublist cfg k s.queue).mem hx)))
    · exact Or.inr (by simpa using hx)
    · exact Or.inl (List.mem_append.mpr (Or.inr hx))
  have hlookup_true : ∀ l1, lookupDev s.devs l1 = some true → lookupDev t' l1 = some true := by
    intro l1 h1
    rcases hdev with ⟨_, hsame⟩ | ⟨l, hmem, _, hset⟩
    · rw [hsame]; exact h1
    · rw [hset]
      by_cases heq : l1 = l
      · subst heq
        exact lookupDev_setDev_self h1 true
      · rw [lookupDev_setDev_ne _ heq]
        exact h1
  have hlive_old : ∀ x ∈ liveBuilds s, ∀ d, x.loopDev = some d →
      ∃ l, d = mkLoopDevPath l ∧ lookupDev t' l = some true := by
    intro x hx d hd
    obtain ⟨l1, hdl, hb⟩ := hInv.liveDevOk x hx d hd
    exact ⟨l1, hdl, hlookup_true l1 hb⟩
  refine
    { runBound := hInv.runBound
      boardsNodup := hInv.boardsNodup
      keyAtMostOne := ?_
      queuePending := ?_
      idsBound := ?_
      idsNodup := ?_
      devKeys := ?_
      liveDevOk := ?_
      liveDevInj := ?_ }
  · intro k'
    show ((removeFirstSameKey cfg k s.queue ++ [nb]).filter
      (fun b => b.get_key cfg = k')).length ≤ 1
    rw [List.filter_append]
    by_cases hk : k' = k
    · subst hk
      rw [removeFirstSameKey_filter (hInv.keyAtMostOne k)]
      simp
    · have h1 : [nb].filter (fun b => b.get_key cfg = k') = [] := by
        simp only [List.filter]
        rw [decide_eq_false (by rw [← hkdef]; exact fun hh => hk hh.symm)]
      rw [h1, List.append_nil]
      calc ((removeFirstSameKey cfg k s.queue).filter (fun b => b.get_key cfg = k')).length
          ≤ (s.queue.filter (fun b => b.get_key cfg = k')).length :=
            ((removeFirstSameKey_sublist cfg k s.queue).filter _).length_le
        _ ≤ 1 := hInv.keyAtMostOne k'
  · intro b hb
    show b.beginTime = none ∧ b.endTime = none
    rcases List.mem_append.mp hb with hb | hb
    · exact hInv.queuePending b ((removeFirstSameKey_sublist cfg k s.queue).mem hb)
    · have : b = nb := by simpa using hb
      subst this
      exact ⟨hnb.2.2.2.1, hnb.2.2.2.2⟩
  · intro b hb
    show b.bid < s.nextId + 1
    rcases hqmem b hb with hb | hb
    · exact Nat.lt_succ_of_lt (hInv.idsBound b hb)
    · subst hb
      rw [hnb.1]
      exact Nat.lt_succ_self _
  · show ((removeFirstSameKey cfg k s.queue ++ [nb] ++ s.running).map Build.bid).Nodup
    rw [List.append_assoc, List.map_append]
    show (List.map Build.bid (removeFirstSameKey cfg k s.queue) ++
      List.map Build.bid ([nb] ++ s.running)).Nodup
    rw [List.map_append]
    show (List.map Build.bid (removeFirstSameKey cfg k s.queue) ++
      (nb.bid :: List.map Build.bid s.running)).Nodup
    rw [List.nodup_middle, List.nodup_cons]
    constructor
    · intro hmem
      rw [← List.map_append] at hmem
      obtain ⟨x, hx, hxb⟩ := List.mem_map.mp hmem
      have hxlive : x ∈ liveBuilds s := by
        unfold liveBuilds
        rcases List.mem_append.mp hx with hx | hx
        · exact List.mem_append.mpr (Or.inl ((removeFirstSameKey_sublist cfg k s.queue).mem hx))
        · exact List.mem_append.mpr (Or.inr hx)
      have := hInv.idsBound x hxlive
      rw [hxb, hnb.1] at this
      omega
    · rw [← List.map_append]
      apply List.Nodup.sublist _ hInv.idsNodup
      apply List.Sublist.map
      exact (removeFirstSameKey_sublist cfg k s.queue).append_right s.running
  · show t'.map Prod.fst = List.range' lo (hi + 1 - lo)
    rcases hdev with ⟨_, hsame⟩ | ⟨l, _, _, hset⟩
    · rw [hsame]; exact hInv.devKeys
    · rw [hset, setDev_keys]; exact hInv.devKeys
  · intro b hb d hd
    rcases hqmem b hb with hb | hb
    · exact hlive_old b hb d hd
    · subst hb
      rcases hdev with ⟨hnone, _⟩ | ⟨l, hmem, hsome, hset⟩
      · rw [hnone] at hd; exact absurd hd (by simp)
      · rw [hsome] at hd
        refine ⟨l, by simpa using hd.symm, ?_⟩
        show lookupDev t' l = some true
        rw [hset]
        exact lookupDev_setDev_self (lookupDev_of_mem (devKeys_nodup hInv) hmem) true
  · intro b1 hb1 b2 hb2 hbid d hd1 hd2
    rcases hqmem b1 hb1 with hb1 | hb1 <;> rcases hqmem b2 hb2 with hb2 | hb2
    · exact hInv.liveDevInj b1 hb1 b2 hb2 hbid d hd1 hd2
    · -- b2 is the new build, b1 is an old live build sharing its device
      subst hb2
      obtain ⟨l1, hdl1, hb1busy⟩ := hInv.liveDevOk b1 hb1 d hd1
      rcases hdev with ⟨hnone, _⟩ | ⟨l, hmem, hsome, _⟩
      · rw [hnone] at hd2; exact absurd hd2 (by simp)
      · rw [hsome] at hd2
        have hdl : d = mkLoopDevPath l := by simpa using hd2.symm
        have hleq : l1 = l := mkLoopDevPath_inj (by rw [← hdl1, ← hdl])
        subst hleq
        have hfree : lookupDev s.devs l1 = some false :=
          lookupDev_of_mem (devKeys_nodup hInv) hmem
        rw [hfree] at hb1busy
        exact absurd hb1busy (by simp)
    · subst hb1
      obtain ⟨l2, hdl2, hb2busy⟩ := hInv.liveDevOk b2 hb2 d hd2
      rcases hdev with ⟨hnone, _⟩ | ⟨l, hmem, hsome, _⟩
      · rw [hnone] at hd1; exact absurd hd1 (by simp)
      · rw [hsome] at hd1
        have hdl : d = mkLoopDevPath l := by simpa using hd1.symm
        have hleq : l2 = l := mkLoopDevPath_inj (by rw [← hdl2, ← hdl])
        subst hleq
        have hfree : lookupDev s.devs l2 = some false :=
          lookupDev_of_mem (devKeys_nodup hInv) hmem
        rw [hfree] at hb2busy
        exact absurd hb2busy (by simp)
    · subst hb1; subst hb2
      exact absurd rfl hbid

/-- Bids are disjoint between the queue and the running table. -/
theorem bid_disjoint {cfg : Cfg} {lo hi : Nat} {s : GState} (hInv : Inv cfg lo hi s)
    {x b : Build} (hx : x ∈ s.queue) (hb : b ∈ s.running) : x.bid ≠ b.bid := by
  intro heq
  have hnd := hInv.idsNodup
  unfold liveBuilds at hnd
  rw [List.map_append, List.nodup_append] at hnd
  exact hnd.2.2 (List.mem_map_of_mem Build.bid hx)
    (heq ▸ List.mem_map_of_mem Build.bid hb)

/-- Two live builds with the same bid are the same build. -/
theorem bid_inj {cfg : Cfg} {lo hi : Nat} {s : GState} (hInv : Inv cfg lo hi s)
    {x y : Build} (hx : x ∈ liveBuilds s) (hy : y ∈ liveBuilds s)
    (heq : x.bid = y.bid) : x = y :=
  List.inj_on_of_nodup_map hInv.idsNodup hx hy heq

theorem inv_exit {cfg : Cfg} {lo hi : Nat} {s : GState} (hInv : Inv cfg lo hi s)
    (bd : String) (code now : Nat) : Inv cfg lo hi (exitStep bd code now s) := by
  cases hlb : lookupBoard s.running bd with
  | none => simpa only [exitStep, hlb] using hInv
  | some b =>
    by_cases hguard : (b.container.isSome && b.beginTime.isSome && b.endTime = none) = true
    · cases hse : b.set_end s.devs code now with
      | error e => simpa only [exitStep, hlb, hguard, if_pos, hse] using hInv
      | ok bt =>
        obtain ⟨hbmem, hbboard⟩ := lookupBoard_some_facts hlb
        have hblive : b ∈ liveBuilds s := List.mem_append.mpr (Or.inr hbmem)
        have hsh := set_end_ok_shape hse
        have hb2board : bt.1.board = bd := by rw [hsh.2.1, hbboard]
        have hb2bid : bt.1.bid = b.bid := hsh.1
        have hcond : ((lookupBoard s.running bt.1.board).any
            (fun x => x.bid = bt.1.bid)) = true := by
          rw [hb2board, hlb]
          simp [hb2bid]
        have hstep : exitStep bd code now s =
            { s with running := removeBoard s.running bt.1.board, devs := bt.2 } := by
          unfold exitStep
          rw [hlb]
          simp only [hguard, if_pos, hse, hcond]
        rw [hstep]
        have hrel := set_end_ok_released hse (hInv.liveDevOk b hblive)
        -- every live build of the new state is a live build of the old one,
        -- distinct from `b` unless it is `b` itself
        have hmem' : ∀ x, x ∈ s.queue ++ removeBoard s.running bt.1.board →
            x ∈ liveBuilds s ∧ (x ∈ s.queue ∨ (x ∈ s.running ∧ x.board ≠ bd)) := by
          intro x hx
          rcases List.mem_append.mp hx with hx | hx
          · exact ⟨List.mem_append.mpr (Or.inl hx), Or.inl hx⟩
          · obtain ⟨hxr, hxbd⟩ := mem_removeBoard.mp hx
            exact ⟨List.mem_append.mpr (Or.inr hxr), Or.inr ⟨hxr, by simpa [hb2board] using hxbd⟩⟩
        have hbid_ne : ∀ x, x ∈ s.queue ++ removeBoard s.running bt.1.board →
            x.bid ≠ b.bid := by
          intro x hx heq
          obtain ⟨hxlive, hcase⟩ := hmem' x hx
          rcases hcase with hxq | ⟨hxr, hxbd⟩
          · exact bid_disjoint hInv hxq hbmem heq
          · have : x = b := bid_inj hInv hxlive hblive heq
            rw [this] at hxbd
            exact hxbd hbboard
        have hlookup : ∀ l1, lookupDev s.devs l1 = some true →
            (∀ d, b.loopDev = some d → d ≠ mkLoopDevPath l1) →
            lookupDev bt.2 l1 = some true := by
          intro l1 h1 hne
          rcases hrel with ⟨_, hsame⟩ | ⟨l, hbdev, _, hset⟩
          · rw [hsame]; exact h1
          · rw [hset]
            have : l1 ≠ l := by
              intro heq
              exact hne _ hbdev (by rw [heq])
            rw [lookupDev_setDev_ne _ this]
            exact h1
        refine
          { runBound := ?_
            boardsNodup := ?_
            keyAtMostOne := hInv.keyAtMostOne
            queuePending := hInv.queuePending
            idsBound := ?_
            idsNodup := ?_
            devKeys := ?_
            liveDevOk := ?_
            liveDevInj := ?_ }
        · calc (removeBoard s.running bt.1.board).length
              ≤ s.running.length := List.length_filter_le _ _
            _ ≤ cfg.maxParallel := hInv.runBound
        · exact List.Nodup.sublist
            ((List.filter_sublist s.running).map Build.board) hInv.boardsNodup
        · intro x hx
          exact hInv.idsBound x (hmem' x hx).1
        · apply List.Nodup.sublist _ hInv.idsNodup
          apply List.Sublist.map
          unfold liveBuilds
          exact List.Sublist.append_left (List.filter_sublist s.running) s.queue
        · rcases hrel with ⟨_, hsame⟩ | ⟨l, _, _, hset⟩
          · rw [hsame]; exact hInv.devKeys
          · rw [hset, setDev_keys]; exact hInv.devKeys
        · intro x hx d hd
          obtain ⟨hxlive, _⟩ := hmem' x hx
          obtain ⟨lx, hdlx, hbusy⟩ := hInv.liveDevOk x hxlive d hd
          refine ⟨lx, hdlx, ?_⟩
          apply hlookup lx hbusy
          intro db hdb hdbeq
          have : x.loopDev = b.loopDev := by
            rw [hd, hdb, hdlx, hdbeq]
          exact hInv.liveDevInj x hxlive b hblive (hbid_ne x hx) d hd (by rw [← this, hd])
        · intro b1 hb1 b2 hb2 hbid d hd1 hd2
          exact hInv.liveDevInj b1 (hmem' b1 hb1).1 b2 (hmem' b2 hb2).1 hbid d hd1 hd2
    · simp only [exitStep, hlb]
      rw [if_neg hguard]
      exact hInv

/-- The invariant does not mention `_current_build_group`. -/
theorem inv_curGroup {cfg : Cfg} {lo hi : Nat} {s : GState} (hInv : Inv cfg lo hi s)
    (c : Option Nat) : Inv cfg lo hi { s with curGroup := c } :=
  { runBound := hInv.runBound
    boardsNodup := hInv.boardsNodup
    keyAtMostOne := hInv.keyAtMostOne
    queuePending := hInv.queuePending
    idsBound := hInv.idsBound
    idsNodup := hInv.idsNodup
    devKeys := hInv.devKeys
    liveDevOk := hInv.liveDevOk
    liveDevInj := hInv.liveDevInj }

/-- Re-appending the dequeued head permutes the queue. -/
theorem inv_requeue {cfg : Cfg} {lo hi : Nat} {s : GState} (hInv : Inv cfg lo hi s)
    {b : Build} {rest : List Build} (hq : s.queue = b :: rest) :
    Inv cfg lo hi { s with queue := rest ++ [b] } := by
  have hperm : (rest ++ [b]).Perm s.queue := by
    rw [hq]
    exact List.perm_append_singleton b rest
  have hlive : (liveBuilds { s with queue := rest ++ [b] }).Perm (liveBuilds s) :=
    hperm.append_right s.running
  refine
    { runBound := hInv.runBound
      boardsNodup := hInv.boardsNodup
      keyAtMostOne := ?_
      queuePending := ?_
      idsBound := ?_
      idsNodup := ?_
      devKeys := hInv.devKeys
      liveDevOk := ?_
      liveDevInj := ?_ }
  · intro k
    rw [(hperm.filter (fun x => x.get_key cfg = k)).length_eq]
    exact hInv.keyAtMostOne k
  · intro x hx
    exact hInv.queuePending x (hperm.mem_iff.mp hx)
  · intro x hx
    exact hInv.idsBound x (hlive.mem_iff.mp hx)
  · exact ((hlive.map Build.bid).nodup_iff).mpr hInv.idsNodup
  · intro x hx d hd
    exact hInv.liveDevOk x (hlive.mem_iff.mp hx) d hd
  · intro b1 hb1 b2 hb2 hbid d hd1 hd2
    exact hInv.liveDevInj b1 (hlive.mem_iff.mp hb1) b2 (hlive.mem_iff.mp hb2) hbid d hd1 hd2

/-- Admitting the head build into a free board slot under the parallelism
bound preserves the invariant; `b'` is the admitted object (the head
itself, possibly after its `set_begin` mutation, which does not touch
identity, board or loop device). -/
theorem inv_admission {cfg : Cfg} {lo hi : Nat} {s : GState} (hInv : Inv cfg lo hi s)
    {b : Build} {rest : List Build} (hq : s.queue = b :: rest)
    (hfresh : lookupBoard s.running b.board = none)
    (hlen : s.running.length < cfg.maxParallel)
    {b' : Build} (hbid : b'.bid = b.bid) (hboard : b'.board = b.board)
    (hdev : b'.loopDev = b.loopDev) (c : Option Nat) :
    Inv cfg lo hi { s with queue := rest, running := s.running ++ [b'], curGroup := c } := by
  have hbq : b ∈ s.queue := by rw [hq]; exact List.mem_cons_self b rest
  have hblive : b ∈ liveBuilds s := List.mem_append.mpr (Or.inl hbq)
  have hrest : rest.Sublist s.queue := by rw [hq]; exact List.sublist_cons_self b rest
  have hmem' : ∀ x, x ∈ rest ++ (s.running ++ [b']) →
      (x ∈ liveBuilds s ∧ x.bid ≠ b.bid) ∨ x = b' := by
    intro x hx
    rcases List.mem_append.mp hx with hx | hx
    · left
      refine ⟨List.mem_append.mpr (Or.inl (hrest.mem hx)), ?_⟩
      intro heq
      have hnd := hInv.idsNodup
      unfold liveBuilds at hnd
      rw [List.map_append] at hnd
      have hndq : (s.queue.map Build.bid).Nodup :=
        List.Nodup.sublist (List.sublist_append_left _ _) hnd
      rw [hq, List.map_cons, List.nodup_cons] at hndq
      exact hndq.1 (heq ▸ List.mem_map_of_mem Build.bid hx)
    · rcases List.mem_append.mp hx with hx | hx
      · left
        refine ⟨List.mem_append.mpr (Or.inr hx), ?_⟩
        intro heq
        exact (bid_disjoint hInv hbq hx) heq.symm
      · right; simpa using hx
  have hbfacts := hInv.liveDevOk b hblive
  refine
    { runBound := ?_
      boardsNodup := ?_
      keyAtMostOne := ?_
      queuePending := ?_
      idsBound := ?_
      idsNodup := ?_
      devKeys := hInv.devKeys
      liveDevOk := ?_
      liveDevInj := ?_ }
  · show (s.running ++ [b']).length ≤ cfg.maxParallel
    rw [List.length_append]
    simpa using hlen
  · show ((s.running ++ [b']).map Build.board).Nodup
    rw [List.map_append]
    apply nodup_append_singleton
    · intro hmem
      obtain ⟨x, hx, hxb⟩ := List.mem_map.mp hmem
      exact (lookupBoard_eq_none.mp hfresh x hx) (by rw [hxb, hboard])
    · exact hInv.boardsNodup
  · intro k
    calc ((rest.filter (fun x => x.get_key cfg = k)).length)
        ≤ ((s.queue.filter (fun x => x.get_key cfg = k)).length) :=
          (hrest.filter _).length_le
      _ ≤ 1 := hInv.keyAtMostOne k
  · intro x hx
    exact hInv.queuePending x (hrest.mem hx)
  · intro x hx
    rcases hmem' x hx with ⟨hxl, _⟩ | hxb
    · exact hInv.idsBound x hxl
    · rw [hxb, hbid]
      exact hInv.idsBound b hblive
  · show ((rest ++ (s.running ++ [b'])).map Build.bid).Nodup
    have hperm : (rest ++ (s.running ++ [b'])).Perm (b' :: (rest ++ s.running)) := by
      rw [← List.append_assoc]
      exact List.perm_append_singleton b' _
    rw [((hperm.map Build.bid).nodup_iff)]
    rw [List.map_cons, List.nodup_cons]
    constructor
    · rw [hbid]
      intro hmem
      obtain ⟨x, hx, hxb⟩ := List.mem_map.mp hmem
      have hxlive : x ∈ liveBuilds s := by
        unfold liveBuilds
        rcases List.mem_append.mp hx with hx | hx
        · exact List.mem_append.mpr (Or.inl (hrest.mem hx))
        · exact List.mem_append.mpr (Or.inr hx)
      have hxq : x ∈ rest ++ (s.running ++ [b']) := by
        rcases List.mem_append.mp hx with hx | hx
        · exact List.mem_append.mpr (Or.inl hx)
        · exact List.mem_append.mpr (Or.inr (List.mem_append.mpr (Or.inl hx)))
      rcases hmem' x hxq with ⟨_, hne⟩ | hxb'
      · exact hne hxb
      · -- x = b' sits in rest ++ s.running, yet b' is fresh: impossible only
        -- through the bid argument, which the first disjunct already covers
        rw [hxb'] at hx
        rcases List.mem_append.mp hx with hx | hx
        · have := hInv.queuePending
          have hxlive2 : b' ∈ liveBuilds s := by
            unfold liveBuilds
            exact List.mem_append.mpr (Or.inl (hrest.mem hx))
          have hb'b : b' = b := bid_inj hInv hxlive2 hblive hbid
          have hndq : (s.queue.map Build.bid).Nodup := by
            have hnd := hInv.idsNodup
            unfold liveBuilds at hnd
            rw [List.map_append] at hnd
            exact List.Nodup.sublist (List.sublist_append_left _ _) hnd
          rw [hq, List.map_cons, List.nodup_cons] at hndq
          rw [hb'b] at hx
          exact hndq.1 (List.mem_map_of_mem Build.bid hx)
        · exact (lookupBoard_eq_none.mp hfresh b' hx) hboard
    · apply List.Nodup.sublist _ hInv.idsNodup
      apply List.Sublist.map
      unfold liveBuilds
      exact hrest.append_right s.running
  · intro x hx d hd
    rcases hmem' x hx with ⟨hxl, _⟩ | hxb
    · exact hInv.liveDevOk x hxl d hd
    · rw [hxb, hdev] at hd
      exact hbfacts d hd
  · intro b1 hb1 b2 hb2 hbidne d hd1 hd2
    rcases hmem' b1 hb1 with ⟨h1l, h1ne⟩ | h1b <;>
      rcases hmem' b2 hb2 with ⟨h2l, h2ne⟩ | h2b
    · exact hInv.liveDevInj b1 h1l b2 h2l hbidne d hd1 hd2
    · rw [h2b, hdev] at hd2
      exact hInv.liveDevInj b1 h1l b hblive h1ne d hd1 hd2
    · rw [h1b, hdev] at hd1
      exact (hInv.liveDevInj b hblive b2 h2l (fun hh => h2ne hh.symm) d hd1) hd2
    · rw [h1b, h2b] at hbidne
      exact absurd rfl hbidne

/-- An interactive admission immediately ends: the head leaves the queue,
the running table returns to its previous value, and the head's loop
device is freed (when it held one). -/
theorem inv_interactive {cfg : Cfg} {lo hi : Nat} {s : GState} (hInv : Inv cfg lo hi s)
    {b b1 : Build} {rest : List Build} (hq : s.queue = b :: rest)
    {t2 : LoopTable} {b2 : Build} {now : Nat}
    (hb1dev : b1.loopDev = b.loopDev)
    (hse : b1.set_end s.devs 0 now = Except.ok (b2, t2)) (c : Option Nat) :
    Inv cfg lo hi { s with queue := rest, running := s.running, curGroup := c, devs := t2 } := by
  have hbq : b ∈ s.queue := by rw [hq]; exact List.mem_cons_self b rest
  have hblive : b ∈ liveBuilds s := List.mem_append.mpr (Or.inl hbq)
  have hrest : rest.Sublist s.queue := by rw [hq]; exact List.sublist_cons_self b rest
  have hwf : ∀ d, b1.loopDev = some d →
      ∃ l, d = mkLoopDevPath l ∧ lookupDev s.devs l = some true := by
    intro d hd
    rw [hb1dev] at hd
    exact hInv.liveDevOk b hblive d hd
  have hrel := set_end_ok_released hse hwf
  have hmem' : ∀ x, x ∈ rest ++ s.running → x ∈ liveBuilds s ∧ x.bid ≠ b.bid := by
    intro x hx
    rcases List.mem_append.mp hx with hx | hx
    · refine ⟨List.mem_append.mpr (Or.inl (hrest.mem hx)), ?_⟩
      intro heq
      have hndq : (s.queue.map Build.bid).Nodup := by
        have hnd := hInv.idsNodup
        unfold liveBuilds at hnd
        rw [List.map_append] at hnd
        exact List.Nodup.sublist (List.sublist_append_left _ _) hnd
      rw [hq, List.map_cons, List.nodup_cons] at hndq
      exact hndq.1 (heq ▸ List.mem_map_of_mem Build.bid hx)
    · exact ⟨List.mem_append.mpr (Or.inr hx), fun heq => (bid_disjoint hInv hbq hx) heq.symm⟩
  have hlookup : ∀ x, x ∈ liveBuilds s → x.bid ≠ b.bid → ∀ d, x.loopDev = some d →
      ∀ lx, d = mkLoopDevPath lx → lookupDev s.devs lx = some true →
      lookupDev t2 lx = some true := by
    intro x hxl hxne d hd lx hdlx hbusy
    rcases hrel with ⟨_, hsame⟩ | ⟨l, hb1some, _, hset⟩
    · rw [hsame]; exact hbusy
    · rw [hset]
      have hlne : lx ≠ l := by
        intro heq
        have hbdev : b.loopDev = some (mkLoopDevPath l) := by rw [← hb1dev, hb1some]
        exact hInv.liveDevInj x hxl b hblive hxne d hd
          (by rw [hbdev, ← heq, ← hdlx])
      rw [lookupDev_setDev_ne _ hlne]
      exact hbusy
  refine
    { runBound := hInv.runBound
      boardsNodup := hInv.boardsNodup
      keyAtMostOne := ?_
      queuePending := ?_
      idsBound := ?_
      idsNodup := ?_
      devKeys := ?_
      liveDevOk := ?_
      liveDevInj := ?_ }
  · intro k
    calc ((rest.filter (fun x => x.get_key cfg = k)).length)
        ≤ ((s.queue.filter (fun x => x.get_key cfg = k)).length) :=
          (hrest.filter _).length_le
      _ ≤ 1 := hInv.keyAtMostOne k
  · intro x hx
    exact hInv.queuePending x (hrest.mem hx)
  · intro x hx
    exact hInv.idsBound x (hmem' x hx).1
  · apply List.Nodup.sublist _ hInv.idsNodup
    apply List.Sublist.map
    exact hrest.append_right s.running
  · rcases hrel with ⟨_, hsame⟩ | ⟨l, _, _, hset⟩
    · rw [hsame]; exact hInv.devKeys
    · rw [hset, setDev_keys]; exact hInv.devKeys
  · intro x hx d hd
    obtain ⟨hxl, hxne⟩ := hmem' x hx
    obtain ⟨lx, hdlx, hbusy⟩ := hInv.liveDevOk x hxl d hd
    exact ⟨lx, hdlx, hlookup x hxl hxne d hd lx hdlx hbusy⟩
  · intro x1 h1 x2 h2 hbidne d hd1 hd2
    exact hInv.liveDevInj x1 (hmem' x1 h1).1 x2 (hmem' x2 h2).1 hbidne d hd1 hd2

theorem inv_admitStep {cfg : Cfg} {lo hi : Nat} {s : GState} (hInv : Inv cfg lo hi s)
    {b : Build} {rest : List Build}
    (hq : s.queue = b :: rest) (hfresh : lookupBoard s.running b.board = none)
    (hlen : s.running.length < cfg.maxParallel) (ok : Bool) (cid now : Nat) :
    Inv cfg lo hi (admitStep ok cid now b rest s) := by
  have hins_b : insertBoard s.running b = s.running ++ [b] := insertBoard_of_fresh hfresh
  by_cases hok : ok = true
  · subst hok
    simp only [admitStep, if_pos]
    cases hsb : b.set_begin (if b.interactive then none else some cid) now with
    | error e =>
      rw [hins_b]
      exact inv_admission hInv hq hfresh hlen rfl rfl rfl b.group
    | ok b1 =>
      obtain ⟨hb1bid, hb1board, hb1dev, _, _, _⟩ := set_begin_ok_shape hsb
      have hfresh1 : lookupBoard s.running b1.board = none := by rw [hb1board]; exact hfresh
      have hins_b1 : insertBoard s.running b1 = s.running ++ [b1] :=
        insertBoard_of_fresh hfresh1
      by_cases hint : b.interactive = true
      · simp only [if_pos hint] at hsb ⊢
        simp only [Option.isSome_none, Bool.false_eq_true, if_false]
        cases hse : b1.set_end s.devs 0 now with
        | error e =>
          rw [hins_b1]
          exact inv_admission hInv hq hfresh hlen hb1bid hb1board hb1dev b.group
        | ok bt =>
          have hshe := set_end_ok_shape hse
          have hcond : ((lookupBoard (insertBoard s.running b1) bt.1.board).any
              (fun x => x.bid = bt.1.bid)) = true := by
            rw [hshe.2.1, hins_b1, lookupBoard_append_self hfresh1]
            simp [hshe.1]
          show Inv cfg lo hi
            { queue := rest
              running :=
                if ((lookupBoard (insertBoard s.running b1) bt.1.board).any
                    (fun x => x.bid = bt.1.bid)) = true then
                  removeBoard (insertBoard s.running b1) bt.1.board
                else insertBoard s.running b1
              curGroup := b.group
              devs := bt.2
              nextId := s.nextId }
          rw [if_pos hcond]
          have hrem : removeBoard (insertBoard s.running b1) bt.1.board = s.running := by
            rw [hshe.2.1, hins_b1]
            exact removeBoard_append_self hfresh1
          rw [hrem]
          exact inv_interactive hInv hq hb1dev hse b.group
      · simp only [if_neg hint] at hsb ⊢
        simp only [Option.isSome_some, if_pos]
        rw [hins_b1]
        exact inv_admission hInv hq hfresh hlen hb1bid hb1board hb1dev b.group
  · simp only [admitStep, if_neg hok]
    rw [hins_b]
    exact inv_admission hInv hq hfresh hlen rfl rfl rfl b.group

theorem inv_dequeue {cfg : Cfg} {lo hi : Nat} {s : GState} (hInv : Inv cfg lo hi s)
    (hlen : s.running.length < cfg.maxParallel) (ok : Bool) (cid now : Nat) :
    Inv cfg lo hi (dequeueStep ok cid now s) := by
  cases hq : s.queue with
  | nil => simpa only [dequeueStep, hq] using hInv
  | cons b rest =>
    simp only [dequeueStep, hq]
    by_cases hbusy : (lookupBoard s.running b.board).isSome = true
    · rw [if_pos hbusy]
      exact inv_requeue hInv hq
    · rw [if_neg hbusy]
      have hfresh : lookupBoard s.running b.board = none := by
        cases hlk : lookupBoard s.running b.board with
        | none => rfl
        | some x =>
          rw [hlk] at hbusy
          simp at hbusy
      by_cases hgrp : (s.curGroup.isSome && b.group ≠ s.curGroup) = true
      · rw [if_pos hgrp]
        exact inv_requeue hInv hq
      · rw [if_neg hgrp]
        exact inv_admitStep hInv hq hfresh hlen ok cid now

theorem inv_tick {cfg : Cfg} {lo hi : Nat} {s : GState} (hInv : Inv cfg lo hi s)
    (ok : Bool) (cid now : Nat) : Inv cfg lo hi (tickStep cfg ok cid now s) := by
  unfold tickStep
  by_cases h1 : s.queue.isEmpty = true
  · rw [if_pos h1]; exact hInv
  · rw [if_neg h1]
    by_cases h2 : cfg.maxParallel ≤ s.running.length
    · rw [if_pos h2]; exact hInv
    · rw [if_neg h2]
      have hlen : s.running.length < cfg.maxParallel := by omega
      by_cases h3 : s.running.length = 0
      · simp only [if_pos h3]
        have hInv1 : Inv cfg lo hi { s with curGroup := none } := inv_curGroup hInv none
        by_cases h4 : ({ s with curGroup := none } : GState).queue.all
            (fun b => (lookupBoard ({ s with curGroup := none } : GState).running
              b.board).isSome) = true
        · rw [if_pos h4]; exact hInv1
        · rw [if_neg h4]
          by_cases h5 : (({ s with curGroup := none } : GState).curGroup.isSome &&
              ({ s with curGroup := none } : GState).queue.all
                (fun b => b.group ≠ ({ s with curGroup := none } : GState).curGroup)) = true
          · rw [if_pos h5]; exact hInv1
          · rw [if_neg h5]
            exact inv_dequeue hInv1 hlen ok cid now
      · simp only [if_neg h3]
        by_cases h4 : s.queue.all (fun b => (lookupBoard s.running b.board).isSome) = true
        · rw [if_pos h4]; exact hInv
        · rw [if_neg h4]
          by_cases h5 : (s.curGroup.isSome && s.queue.all
              (fun b => b.group ≠ s.curGroup)) = true
          · rw [if_pos h5]; exact hInv
          · rw [if_neg h5]
            exact inv_dequeue hInv hlen ok cid now

theorem inv_stepEv {cfg : Cfg} {lo hi : Nat} {s : GState} (hInv : Inv cfg lo hi s)
    (e : Ev) : Inv cfg lo hi (stepEv cfg e s) := by
  cases e with
  | sched p => exact inv_sched hInv p
  | tick ok cid now => exact inv_tick hInv ok cid now
  | exitc bd code now => exact inv_exit hInv bd code now

theorem inv_init (cfg : Cfg) (lo hi : Nat) : Inv cfg lo hi (initGState lo hi) := by
  refine
    { runBound := by simp [initGState]
      boardsNodup := by simp [initGState]
      keyAtMostOne := by intro k; simp [initGState]
      queuePending := by intro b hb; simp [initGState] at hb
      idsBound := by intro b hb; simp [initGState, liveBuilds] at hb
      idsNodup := by simp [initGState, liveBuilds]
      devKeys := loopReach_keys LoopReach.init
      liveDevOk := by intro b hb; simp [initGState, liveBuilds] at hb
      liveDevInj := by intro b1 hb1; simp [initGState, liveBuilds] at hb1 }

theorem inv_reach {cfg : Cfg} {lo hi : Nat} {s : GState} (h : GReach cfg lo hi s) :
    Inv cfg lo hi s := by
  induction h with
  | init => exact inv_init cfg lo hi
  | step e _ ih => exact inv_stepEv ih e

/-- C1: over every reachable scheduler state, the running table
`_current_builds_by_board` holds at most `DOCKER_MAX_PARALLEL` builds and
no two of them share a board (equivalently, the loop never admits a build
whose board already has a running build — line 348 pushes such a build
back instead). -/
theorem C1_running_bounded_and_board_exclusive (cfg : Cfg) (lo hi : Nat) (s : GState)
    (hs : GReach cfg lo hi s) :
    s.running.length ≤ cfg.maxParallel ∧ (s.running.map Build.board).Nodup :=
  ⟨(inv_reach hs).runBound, (inv_reach hs).boardsNodup⟩

/-- C1 witness: the state after scheduling one build and one successful
scheduler tick. -/
theorem C1_running_bounded_and_board_exclusive_witness :
    GReach cfg0 0 0 (stepEv cfg0 (Ev.tick true 7 1) (stepEv cfg0 (Ev.sched p0) (initGState 0 0))) ∧
    ((stepEv cfg0 (Ev.tick true 7 1) (stepEv cfg0 (Ev.sched p0) (initGState 0 0))).running.length
        ≤ cfg0.maxParallel ∧
      ((stepEv cfg0 (Ev.tick true 7 1)
        (stepEv cfg0 (Ev.sched p0) (initGState 0 0))).running.map Build.board).Nodup) :=
  ⟨GReach.step _ (GReach.step _ GReach.init),
    C1_running_bounded_and_board_exclusive cfg0 0 0 _
      (GReach.step _ (GReach.step _ GReach.init))⟩

/-- C3: over every reachable scheduler state, at most one queued build per
key; and scheduling `Y` while an `X` of the same key is queued removes
`X` and leaves the new build as the single queued build with that key. -/
theorem C3_queue_deduplication (cfg : Cfg) (lo hi : Nat) (s : GState)
    (hs : GReach cfg lo hi s) :
    (∀ k, (s.queue.filter (fun b => b.get_key cfg = k)).length ≤ 1) ∧
    (∀ p X, X ∈ s.queue → X.get_key cfg = (newBuildOf p s).get_key cfg →
      X ∉ (scheduleStep cfg p s).queue ∧
      (scheduleStep cfg p s).queue.filter
        (fun b => b.get_key cfg = (newBuildOf p s).get_key cfg) = [newBuildOf p s]) := by
  have hInv := inv_reach hs
  refine ⟨hInv.keyAtMostOne, ?_⟩
  intro p X hX hkey
  have hXlive : X ∈ liveBuilds s := List.mem_append.mpr (Or.inl hX)
  have hq' : (scheduleStep cfg p s).queue =
      removeFirstSameKey cfg ((newBuildOf p s).get_key cfg) s.queue ++ [newBuildOf p s] := rfl
  have hfilter : (removeFirstSameKey cfg ((newBuildOf p s).get_key cfg) s.queue).filter
      (fun b => b.get_key cfg = (newBuildOf p s).get_key cfg) = [] :=
    removeFirstSameKey_filter (hInv.keyAtMostOne _)
  have hXnotin : X ∉ removeFirstSameKey cfg ((newBuildOf p s).get_key cfg) s.queue := by
    intro hmem
    have : X ∈ (removeFirstSameKey cfg ((newBuildOf p s).get_key cfg) s.queue).filter
        (fun b => b.get_key cfg = (newBuildOf p s).get_key cfg) :=
      List.mem_filter.mpr ⟨hmem, by simpa using hkey⟩
    rw [hfilter] at this
    simp at this
  have hXne : X ≠ newBuildOf p s := by
    intro heq
    have hb := hInv.idsBound X hXlive
    have : (newBuildOf p s).bid = s.nextId := (mkBuild_fields p s.nextId s.devs).1
    rw [heq, this] at hb
    omega
  constructor
  · rw [hq']
    intro hmem
    rcases List.mem_append.mp hmem with hmem | hmem
    · exact hXnotin hmem
    · exact hXne (by simpa using hmem)
  · rw [hq', List.filter_append, hfilter, List.nil_append]
    simp

/-- C3 witness: scheduling the same request twice leaves exactly the
newer build queued. -/
theorem C3_queue_deduplication_witness :
    GReach cfg0 0 0 (stepEv cfg0 (Ev.sched p0) (initGState 0 0)) ∧
    newBuildOf p0 (initGState 0 0) ∈ (stepEv cfg0 (Ev.sched p0) (initGState 0 0)).queue ∧
    (newBuildOf p0 (initGState 0 0)).get_key cfg0
      = (newBuildOf p0 (stepEv cfg0 (Ev.sched p0) (initGState 0 0))).get_key cfg0 ∧
    (newBuildOf p0 (initGState 0 0) ∉
        (scheduleStep cfg0 p0 (stepEv cfg0 (Ev.sched p0) (initGState 0 0))).queue ∧
      (scheduleStep cfg0 p0 (stepEv cfg0 (Ev.sched p0) (initGState 0 0))).queue.filter
        (fun b => b.get_key cfg0
          = (newBuildOf p0 (stepEv cfg0 (Ev.sched p0) (initGState 0 0))).get_key cfg0)
        = [newBuildOf p0 (stepEv cfg0 (Ev.sched p0) (initGState 0 0))]) :=
  ⟨GReach.step _ GReach.init, by decide, by decide,
    (C3_queue_deduplication cfg0 0 0 _ (GReach.step _ GReach.init)).2 p0
      (newBuildOf p0 (initGState 0 0)) (by decide) (by decide)⟩

/-- C2 counterexample: one build is scheduled (board `boardA`), the
scheduler dequeues it and the container launch fails.  The claim says the
build is afterwards in neither the pending queue nor the running set; in
fact the queue is empty but the build **is** in the running set — line 358
(`_current_builds_by_board[build.board] = build`) runs before the launch
attempt and the `continue` at line 397 never undoes it. -/
theorem C2_launch_failure_counterexample :
    (stepEv cfg0 (Ev.tick false 0 0) (stepEv cfg0 (Ev.sched p0) (initGState 0 0))).queue = [] ∧
    newBuildOf p0 (initGState 0 0) ∈
      (stepEv cfg0 (Ev.tick false 0 0) (stepEv cfg0 (Ev.sched p0) (initGState 0 0))).running := by
  refine ⟨by decide, by decide⟩

/-- When the head build's board is free and it passes the group check,
one scheduler iteration reduces to its admission. -/
theorem dequeueStep_admission {s : GState} {b : Build} {rest : List Build}
    (hq : s.queue = b :: rest)
    (hfresh : lookupBoard s.running b.board = none)
    (hgrp : (s.curGroup.isSome && decide (b.group ≠ s.curGroup)) = false)
    (ok : Bool) (cid now : Nat) :
    dequeueStep ok cid now s = admitStep ok cid now b rest s := by
  unfold dequeueStep
  simp only [hq]
  rw [if_neg (by rw [hfresh]; simp), if_neg (by rw [hgrp]; simp)]

/-- C2 amended: once the scheduler has dequeued a build `b` whose board
is free (and which passes the group check) and the container launch
fails, `b` is removed from the pending queue, the loop-device table is
untouched, and the loop continues with the next tick — but `b` **remains
in the running set** keyed by its board: the admission at line 358 is not
rolled back by the `continue` at line 397, so the board slot stays
occupied by a build that never began. -/
theorem C2_launch_failure_amended (s : GState) (b : Build) (rest : List Build)
    (cid now : Nat) (hq : s.queue = b :: rest)
    (hfresh : lookupBoard s.running b.board = none)
    (hgrp : (s.curGroup.isSome && decide (b.group ≠ s.curGroup)) = false) :
    (dequeueStep false cid now s).queue = rest ∧
    b ∈ (dequeueStep false cid now s).running ∧
    (dequeueStep false cid now s).devs = s.devs := by
  rw [dequeueStep_admission hq hfresh hgrp false cid now]
  have hstep : admitStep false cid now b rest s =
      { s with queue := rest, running := insertBoard s.running b, curGroup := b.group } := rfl
  rw [hstep, insertBoard_of_fresh hfresh]
  exact ⟨rfl, List.mem_append.mpr (Or.inr (List.mem_singleton.mpr rfl)), rfl⟩

/-- C2 amended witness: the concrete failing launch of the counterexample. -/
theorem C2_launch_failure_amended_witness :
    (dequeueStep false 0 0 (stepEv cfg0 (Ev.sched p0) (initGState 0 0))).queue = [] ∧
    newBuildOf p0 (initGState 0 0) ∈
      (dequeueStep false 0 0 (stepEv cfg0 (Ev.sched p0) (initGState 0 0))).running ∧
    (dequeueStep false 0 0 (stepEv cfg0 (Ev.sched p0) (initGState 0 0))).devs
      = (stepEv cfg0 (Ev.sched p0) (initGState 0 0)).devs :=
  C2_launch_failure_amended (stepEv cfg0 (Ev.sched p0) (initGState 0 0))
    (newBuildOf p0 (initGState 0 0)) [] 0 0 (by decide) (by decide) (by decide)

/-! ### Orphaned loop devices (C10) -/

theorem orphanBusy_of {s s' : GState} {l : Nat} (ho : OrphanBusy s l)
    (hdev : lookupDev s'.devs l = some true)
    (hlive : ∀ x ∈ liveBuilds s', ∀ d, x.loopDev = some d →
      (∃ y ∈ liveBuilds s, y.loopDev = some d) ∨ d ≠ mkLoopDevPath l) :
    OrphanBusy s' l := by
  refine ⟨hdev, ?_⟩
  intro x hx d hd heq
  rcases hlive x hx d hd with ⟨y, hy, hyd⟩ | hne
  · exact ho.2 y hy d hyd heq
  · exact hne heq

theorem orphan_curGroup {s : GState} {l : Nat} (ho : OrphanBusy s l) (c : Option Nat) :
    OrphanBusy { s with curGroup := c } l :=
  ⟨ho.1, ho.2⟩

theorem orphan_requeue {s : GState} {l : Nat} {b : Build} {rest : List Build}
    (hq : s.queue = b :: rest) (ho : OrphanBusy s l) :
    OrphanBusy { s with queue := rest ++ [b] } l := by
  have hperm : (rest ++ [b]).Perm s.queue := by
    rw [hq]; exact List.perm_append_singleton b rest
  refine orphanBusy_of ho ho.1 ?_
  intro x hx d hd
  exact Or.inl ⟨x, (hperm.append_right s.running).mem_iff.mp hx, hd⟩

theorem orphan_admission {s : GState} {l : Nat} {b b' : Build} {rest : List Build}
    (hq : s.queue = b :: rest) (hdev' : b'.loopDev = b.loopDev)
    (c : Option Nat) (ho : OrphanBusy s l) :
    OrphanBusy { s with queue := rest, running := s.running ++ [b'], curGroup := c } l := by
  have hbq : b ∈ s.queue := by rw [hq]; exact List.mem_cons_self b rest
  have hrest : rest.Sublist s.queue := by rw [hq]; exact List.sublist_cons_self b rest
  refine orphanBusy_of ho ho.1 ?_
  intro x hx d hd
  left
  rcases List.mem_append.mp hx with hx | hx
  · exact ⟨x, List.mem_append.mpr (Or.inl (hrest.mem hx)), hd⟩
  · rcases List.mem_append.mp hx with hx | hx
    · exact ⟨x, List.mem_append.mpr (Or.inr hx), hd⟩
    · have hxb : x = b' := by simpa using hx
      refine ⟨b, List.mem_append.mpr (Or.inl hbq), ?_⟩
      rw [← hdev', ← hxb]
      exact hd

theorem orphan_interactive {cfg : Cfg} {lo hi : Nat} {s : GState} (hInv : Inv cfg lo hi s)
    {l : Nat} {b b1 b2 : Build} {rest : List Build} {t2 : LoopTable} {now : Nat}
    (hq : s.queue = b :: rest) (hb1dev : b1.loopDev = b.loopDev)
    (hse : b1.set_end s.devs 0 now = Except.ok (b2, t2)) (c : Option Nat)
    (ho : OrphanBusy s l) :
    OrphanBusy { s with queue := rest, running := s.running, curGroup := c, devs := t2 } l := by
  have hbq : b ∈ s.queue := by rw [hq]; exact List.mem_cons_self b rest
  have hblive : b ∈ liveBuilds s := List.mem_append.mpr (Or.inl hbq)
  have hrest : rest.Sublist s.queue := by rw [hq]; exact List.sublist_cons_self b rest
  have hrel := set_end_ok_released hse (fun d hd =>
    hInv.liveDevOk b hblive d (by rw [← hb1dev]; exact hd))
  refine orphanBusy_of ho ?_ ?_
  · show lookupDev t2 l = some true
    rcases hrel with ⟨_, hsame⟩ | ⟨lb, hbdev, _, hset⟩
    · rw [hsame]; exact ho.1
    · rw [hset]
      have hlne : l ≠ lb := by
        intro heq
        exact ho.2 b hblive (mkLoopDevPath lb) (by rw [← hb1dev, hbdev]) (by rw [heq])
      rw [lookupDev_setDev_ne _ hlne]
      exact ho.1
  · intro x hx d hd
    left
    rcases List.mem_append.mp hx with hx | hx
    · exact ⟨x, List.mem_append.mpr (Or.inl (hrest.mem hx)), hd⟩
    · exact ⟨x, List.mem_append.mpr (Or.inr hx), hd⟩

theorem orphan_sched {cfg : Cfg} {lo hi : Nat} {s : GState} (hInv : Inv cfg lo hi s)
    (p : SchedParams) {l : Nat} (ho : OrphanBusy s l) :
    OrphanBusy (scheduleStep cfg p s) l := by
  have hdev := mkBuild_dev p s.nextId s.devs
  have hbusy : lookupDev (scheduleStep cfg p s).devs l = some true := by
    show lookupDev (mkBuild p s.nextId s.devs).2 l = some true
    rcases hdev with ⟨_, hsame⟩ | ⟨l', hmem, _, hset⟩
    · rw [hsame]; exact ho.1
    · rw [hset]
      have hne : l ≠ l' := by
        intro heq
        have hfree : lookupDev s.devs l' = some false :=
          lookupDev_of_mem (devKeys_nodup hInv) hmem
        rw [← heq, ho.1] at hfree
        exact absurd hfree (by simp)
      rw [lookupDev_setDev_ne _ hne]
      exact ho.1
  refine orphanBusy_of ho hbusy ?_
  intro x hx d hd
  unfold liveBuilds scheduleStep at hx
  simp only [List.mem_append] at hx
  rcases hx with (hx | hx) | hx
  · exact Or.inl ⟨x, List.mem_append.mpr (Or.inl
      ((removeFirstSameKey_sublist cfg _ s.queue).mem hx)), hd⟩
  · have hxnb : x = (mkBuild p s.nextId s.devs).1 := by simpa using hx
    rcases hdev with ⟨hnone, _⟩ | ⟨l', hmem, hsome, _⟩
    · rw [hxnb, hnone] at hd
      exact absurd hd (by simp)
    · right
      rw [hxnb, hsome] at hd
      have hdl : d = mkLoopDevPath l' := by simpa using hd.symm
      intro heq
      have hll : l' = l := mkLoopDevPath_inj (by rw [← hdl, ← heq])
      have hfree : lookupDev s.devs l' = some false :=
        lookupDev_of_mem (devKeys_nodup hInv) hmem
      rw [hll, ho.1] at hfree
      exact absurd hfree (by simp)
  · exact Or.inl ⟨x, List.mem_append.mpr (Or.inr hx), hd⟩

theorem orphan_exit {cfg : Cfg} {lo hi : Nat} {s : GState} (hInv : Inv cfg lo hi s)
    (bd : String) (code now : Nat) {l : Nat} (ho : OrphanBusy s l) :
    OrphanBusy (exitStep bd code now s) l := by
  cases hlb : lookupBoard s.running bd with
  | none => simpa only [exitStep, hlb] using ho
  | some b =>
    by_cases hguard : (b.container.isSome && b.beginTime.isSome && b.endTime = none) = true
    · cases hse : b.set_end s.devs code now with
      | error e => simpa only [exitStep, hlb, hguard, if_pos, hse] using ho
      | ok bt =>
        obtain ⟨hbmem, hbboard⟩ := lookupBoard_some_facts hlb
        have hblive : b ∈ liveBuilds s := List.mem_append.mpr (Or.inr hbmem)
        have hsh := set_end_ok_shape hse
        have hcond : ((lookupBoard s.running bt.1.board).any
            (fun x => x.bid = bt.1.bid)) = true := by
          rw [hsh.2.1, hbboard, hlb]
          simp [hsh.1]
        have hstep : exitStep bd code now s =
            { s with running := removeBoard s.running bt.1.board, devs := bt.2 } := by
          unfold exitStep
          rw [hlb]
          simp only [hguard, if_pos, hse, hcond]
        rw [hstep]
        have hrel := set_end_ok_released hse (hInv.liveDevOk b hblive)
        refine orphanBusy_of ho ?_ ?_
        · show lookupDev bt.2 l = some true
          rcases hrel with ⟨_, hsame⟩ | ⟨lb, hbdev, _, hset⟩
          · rw [hsame]; exact ho.1
          · rw [hset]
            have hlne : l ≠ lb := by
              intro heq
              exact ho.2 b hblive (mkLoopDevPath lb) hbdev (by rw [heq])
            rw [lookupDev_setDev_ne _ hlne]
            exact ho.1
        · intro x hx d hd
          left
          rcases List.mem_append.mp hx with hx | hx
          · exact ⟨x, List.mem_append.mpr (Or.inl hx), hd⟩
          · exact ⟨x, List.mem_append.mpr (Or.inr (mem_removeBoard.mp hx).1), hd⟩
    · simp only [exitStep, hlb]
      rw [if_neg hguard]
      exact ho

theorem orphan_admitStep {cfg : Cfg} {lo hi : Nat} {s : GState} (hInv : Inv cfg lo hi s)
    {b : Build} {rest : List Build}
    (hq : s.queue = b :: rest) (hfresh : lookupBoard s.running b.board = none)
    (ok : Bool) (cid now : Nat) {l : Nat} (ho : OrphanBusy s l) :
    OrphanBusy (admitStep ok cid now b rest s) l := by
  have hins_b : insertBoard s.running b = s.running ++ [b] := insertBoard_of_fresh hfresh
  by_cases hok : ok = true
  · subst hok
    simp only [admitStep, if_pos]
    cases hsb : b.set_begin (if b.interactive then none else some cid) now with
    | error e =>
      rw [hins_b]
      exact orphan_admission hq rfl b.group ho
    | ok b1 =>
      obtain ⟨hb1bid, hb1board, hb1dev, _, _, _⟩ := set_begin_ok_shape hsb
      have hfresh1 : lookupBoard s.running b1.board = none := by rw [hb1board]; exact hfresh
      have hins_b1 : insertBoard s.running b1 = s.running ++ [b1] :=
        insertBoard_of_fresh hfresh1
      by_cases hint : b.interactive = true
      · simp only [if_pos hint] at hsb ⊢
        simp only [Option.isSome_none, Bool.false_eq_true, if_false]
        cases hse : b1.set_end s.devs 0 now with
        | error e =>
          rw [hins_b1]
          exact orphan_admission hq hb1dev b.group ho
        | ok bt =>
          have hshe := set_end_ok_shape hse
          have hcond : ((lookupBoard (insertBoard s.running b1) bt.1.board).any
              (fun x => x.bid = bt.1.bid)) = true := by
            rw [hshe.2.1, hins_b1, lookupBoard_append_self hfresh1]
            simp [hshe.1]
          show OrphanBusy
            { queue := rest
              running :=
                if ((lookupBoard (insertBoard s.running b1) bt.1.board).any
                    (fun x => x.bid = bt.1.bid)) = true then
                  removeBoard (insertBoard s.running b1) bt.1.board
                else insertBoard s.running b1
              curGroup := b.group
              devs := bt.2
              nextId := s.nextId } l
          rw [if_pos hcond]
          have hrem : removeBoard (insertBoard s.running b1) bt.1.board = s.running := by
            rw [hshe.2.1, hins_b1]
            exact removeBoard_append_self hfresh1
          rw [hrem]
          exact orphan_interactive hInv hq hb1dev hse b.group ho
      · simp only [if_neg hint] at hsb ⊢
        simp only [Option.isSome_some, if_pos]
        rw [hins_b1]
        exact orphan_admission hq hb1dev b.group ho
  · simp only [admitStep, if_neg hok]
    rw [hins_b]
    exact orphan_admission hq rfl b.group ho

theorem orphan_dequeue {cfg : Cfg} {lo hi : Nat} {s : GState} (hInv : Inv cfg lo hi s)
    (ok : Bool) (cid now : Nat) {l : Nat} (ho : OrphanBusy s l) :
    OrphanBusy (dequeueStep ok cid now s) l := by
  cases hq : s.queue with
  | nil => simpa only [dequeueStep, hq] using ho
  | cons b rest =>
    simp only [dequeueStep, hq]
    by_cases hbusy : (lookupBoard s.running b.board).isSome = true
    · rw [if_pos hbusy]
      exact orphan_requeue hq ho
    · rw [if_neg hbusy]
      have hfresh : lookupBoard s.running b.board = none := by
        cases hlk : lookupBoard s.running b.board with
        | none => rfl
        | some x =>
          rw [hlk] at hbusy
          simp at hbusy
      by_cases hgrp : (s.curGroup.isSome && b.group ≠ s.curGroup) = true
      · rw [if_pos hgrp]
        exact orphan_requeue hq ho
      · rw [if_neg hgrp]
        exact orphan_admitStep hInv hq hfresh ok cid now ho

theorem orphan_tick {cfg : Cfg} {lo hi : Nat} {s : GState} (hInv : Inv cfg lo hi s)
    (ok : Bool) (cid now : Nat) {l : Nat} (ho : OrphanBusy s l) :
    OrphanBusy (tickStep cfg ok cid now s) l := by
  unfold tickStep
  by_cases h1 : s.queue.isEmpty = true
  · rw [if_pos h1]; exact ho
  · rw [if_neg h1]
    by_cases h2 : cfg.maxParallel ≤ s.running.length
    · rw [if_pos h2]; exact ho
    · rw [if_neg h2]
      by_cases h3 : s.running.length = 0
      · simp only [if_pos h3]
        have hInv1 : Inv cfg lo hi { s with curGroup := none } := inv_curGroup hInv none
        have ho1 : OrphanBusy { s with curGroup := none } l := orphan_curGroup ho none
        by_cases h4 : ({ s with curGroup := none } : GState).queue.all
            (fun b => (lookupBoard ({ s with curGroup := none } : GState).running
              b.board).isSome) = true
        · rw [if_pos h4]; exact ho1
        · rw [if_neg h4]
          by_cases h5 : (({ s with curGroup := none } : GState).curGroup.isSome &&
              ({ s with curGroup := none } : GState).queue.all
                (fun b => b.group ≠ ({ s with curGroup := none } : GState).curGroup)) = true
          · rw [if_pos h5]; exact ho1
          · rw [if_neg h5]
            exact orphan_dequeue hInv1 ok cid now ho1
      · simp only [if_neg h3]
        by_cases h4 : s.queue.all (fun b => (lookupBoard s.running b.board).isSome) = true
        · rw [if_pos h4]; exact ho
        · rw [if_neg h4]
          by_cases h5 : (s.curGroup.isSome && s.queue.all
              (fun b => b.group ≠ s.curGroup)) = true
          · rw [if_pos h5]; exact ho
          · rw [if_neg h5]
            exact orphan_dequeue hInv ok cid now ho

theorem orphan_stepEv {cfg : Cfg} {lo hi : Nat} {s : GState} (hInv : Inv cfg lo hi s)
    (e : Ev) {l : Nat} (ho : OrphanBusy s l) : OrphanBusy (stepEv cfg e s) l := by
  cases e with
  | sched p => exact orphan_sched hInv p ho
  | tick ok cid now => exact orphan_tick hInv ok cid now ho
  | exitc bd code now => exact orphan_exit hInv bd code now ho

theorem orphan_run {cfg : Cfg} {lo hi : Nat} {s : GState} (hInv : Inv cfg lo hi s)
    {l : Nat} (ho : OrphanBusy s l) (es : List Ev) :
    OrphanBusy (runEvs cfg s es) l := by
  induction es generalizing s with
  | nil => exact ho
  | cons e es ih =>
    exact ih (inv_stepEv hInv e) (orphan_stepEv hInv e ho)

/-- C10 (implicit): when `_schedule_build` replaces a queued build `X`
with the same key, and `X` had acquired a loop device at construction,
that device is never released afterwards.  `release_loop_dev` is reached
only from `Build.set_end`, which applies only to builds the scheduler can
still reach; after the replacement, in every subsequent state the
orphaned slot stays busy and no queued or running build holds it, so each
such replacement permanently shrinks the pool of free loop slots by
one. -/
theorem C10_replaced_build_leaks_loop_device (cfg : Cfg) (lo hi : Nat) (s : GState)
    (hs : GReach cfg lo hi s) (p : SchedParams) (X : Build) (hX : X ∈ s.queue)
    (dev : String) (hdev : X.loopDev = some dev)
    (hkey : X.get_key cfg = (newBuildOf p s).get_key cfg) :
    ∃ l, dev = mkLoopDevPath l ∧
      ∀ es : List Ev,
        lookupDev (runEvs cfg (stepEv cfg (Ev.sched p) s) es).devs l = some true ∧
        ∀ b ∈ liveBuilds (runEvs cfg (stepEv cfg (Ev.sched p) s) es),
          ∀ d, b.loopDev = some d → d ≠ mkLoopDevPath l := by
  have hInv := inv_reach hs
  have hXlive : X ∈ liveBuilds s := List.mem_append.mpr (Or.inl hX)
  obtain ⟨l, hdl, hbusy⟩ := hInv.liveDevOk X hXlive dev hdev
  have hmkdev := mkBuild_dev p s.nextId s.devs
  have hfilter : (removeFirstSameKey cfg ((newBuildOf p s).get_key cfg) s.queue).filter
      (fun b => b.get_key cfg = (newBuildOf p s).get_key cfg) = [] :=
    removeFirstSameKey_filter (hInv.keyAtMostOne _)
  have ho1 : OrphanBusy (stepEv cfg (Ev.sched p) s) l := by
    constructor
    · show lookupDev (mkBuild p s.nextId s.devs).2 l = some true
      rcases hmkdev with ⟨_, hsame⟩ | ⟨l', hmem, _, hset⟩
      · rw [hsame]; exact hbusy
      · rw [hset]
        have hne : l ≠ l' := by
          intro heq
          have hfree : lookupDev s.devs l' = some false :=
            lookupDev_of_mem (devKeys_nodup hInv) hmem
          rw [← heq, hbusy] at hfree
          exact absurd hfree (by simp)
        rw [lookupDev_setDev_ne _ hne]
        exact hbusy
    · intro x hx d' hd' heq
      have hXdev : X.loopDev = some (mkLoopDevPath l) := by rw [hdev, hdl]
      unfold liveBuilds stepEv scheduleStep at hx
      simp only [List.mem_append] at hx
      rcases hx with (hx | hx) | hx
      · -- x survived the replacement scan: it cannot be X
        have hxq : x ∈ s.queue := (removeFirstSameKey_sublist cfg _ s.queue).mem hx
        have hxlive : x ∈ liveBuilds s := List.mem_append.mpr (Or.inl hxq)
        have hxne : x.bid ≠ X.bid := by
          intro hbid
          have hxX : x = X := bid_inj hInv hxlive hXlive hbid
          rw [hxX] at hx
          have : X ∈ (removeFirstSameKey cfg ((newBuildOf p s).get_key cfg) s.queue).filter
              (fun b => b.get_key cfg = (newBuildOf p s).get_key cfg) :=
            List.mem_filter.mpr ⟨hx, by simpa using hkey⟩
          rw [hfilter] at this
          simp at this
        exact hInv.liveDevInj x hxlive X hXlive hxne d' hd' (by rw [hXdev, ← heq, ← hd'])
      · -- x is the freshly constructed build: its device was free
        have hxnb : x = (mkBuild p s.nextId s.devs).1 := by simpa using hx
        rcases hmkdev with ⟨hnone, _⟩ | ⟨l', hmem, hsome, _⟩
        · rw [hxnb, hnone] at hd'
          exact absurd hd' (by simp)
        · rw [hxnb, hsome] at hd'
          have hd'l : d' = mkLoopDevPath l' := by simpa using hd'.symm
          have hll : l' = l := mkLoopDevPath_inj (by rw [← hd'l, ← heq])
          have hfree : lookupDev s.devs l' = some false :=
            lookupDev_of_mem (devKeys_nodup hInv) hmem
          rw [hll, hbusy] at hfree
          exact absurd hfree (by simp)
      · -- x is running: distinct identity from the queued X
        have hxlive : x ∈ liveBuilds s := List.mem_append.mpr (Or.inr hx)
        have hxne : x.bid ≠ X.bid := fun hbid => (bid_disjoint hInv hX hx) hbid.symm
        exact hInv.liveDevInj x hxlive X hXlive hxne d' hd' (by rw [hXdev, ← heq, ← hd'])
  refine ⟨l, hdl, ?_⟩
  intro es
  have ho := orphan_run (inv_sched hInv p) ho1 es
  exact ⟨ho.1, ho.2⟩

/-- C10 witness: with a single loop device, scheduling the same nightly
request twice orphans the slot the first build acquired; it stays busy
across further events. -/
theorem C10_replaced_build_leaks_loop_device_witness :
    GReach cfg0 0 0 (stepEv cfg0 (Ev.sched p0) (initGState 0 0)) ∧
    newBuildOf p0 (initGState 0 0) ∈ (stepEv cfg0 (Ev.sched p0) (initGState 0 0)).queue ∧
    (newBuildOf p0 (initGState 0 0)).loopDev = some (mkLoopDevPath 0) ∧
    (newBuildOf p0 (initGState 0 0)).get_key cfg0
      = (newBuildOf p0 (stepEv cfg0 (Ev.sched p0) (initGState 0 0))).get_key cfg0 ∧
    (∃ l, mkLoopDevPath 0 = mkLoopDevPath l ∧
      ∀ es : List Ev,
        lookupDev (runEvs cfg0 (stepEv cfg0 (Ev.sched p0)
          (stepEv cfg0 (Ev.sched p0) (initGState 0 0))) es).devs l = some true ∧
        ∀ b ∈ liveBuilds (runEvs cfg0 (stepEv cfg0 (Ev.sched p0)
            (stepEv cfg0 (Ev.sched p0) (initGState 0 0))) es),
          ∀ d, b.loopDev = some d → d ≠ mkLoopDevPath l) :=
  ⟨GReach.step _ GReach.init, by decide, by decide, by decide,
    C10_replaced_build_leaks_loop_device cfg0 0 0
      (stepEv cfg0 (Ev.sched p0) (initGState 0 0)) (GReach.step _ GReach.init) p0
      (newBuildOf p0 (initGState 0 0)) (by decide) (mkLoopDevPath 0) (by decide) (by decide)⟩

end Thingosdci
